import Mathlib

/-!
# Montecasino: the flat Monte-Carlo move generator of `montecasino/montecasino.c`

A shallow embedding of `play_random_game`, `best_move_at_board` and
`montecasino_genmove`, followed by the properties proved about them.

Conventions of the embedding.

* C `int` counters are `Int`.  Every counter of the program moves by one from
  `0` and is bounded by the playout budget `mc->games` (an `int`) or by the
  superko cap, so its arithmetic is exact.  The product `2 * mc->games` of the
  cap is not: it leaves the range of `int` for `mc->games >= 2^30` and is
  taken with `int_wrap`, the 32-bit two's-complement value.
* C `float` values live in a carrier `F` with a linear order.  The float
  operations the program uses (`0`, `0.5`, `(float) wins / games`, `1 - x`) are the
  fields of `float_ops`; nothing is assumed about rounding.
* The headers (`board.h`, `move.h`, `montecarlo/internal.h`, `montecarlo/hint.h`)
  are not part of the sources; what they declare is a parameter (`rules`,
  `board`, `montecarlo`) or is marked as modelled from the specification.
* An array `struct move_stat *` is a map from the C index to the entry.
* Diagnostic output (`fprintf`, `board_print`) is left out.  The guard of the
  print at line 152 divides by `mc->games/2`: `play_random_game` has no result
  when a playout reaches that line with `mc->games/2 == 0`.
-/

set_option autoImplicit false

namespace Montecasino

/-! ## Data model -/

/-- The coordinate `coord_t`: the program reads its field `pos` only. -/
structure coord_t where
  pos : Int
deriving DecidableEq, Repr

/-- The colours of `enum stone`. -/
inductive stone where
  | S_NONE
  | S_BLACK
  | S_WHITE
  | S_OFFBOARD
deriving DecidableEq, Repr

/-- Modelled from the spec: `stone_other` (declared in the missing `stone.h` or
`board.h`) swaps the two players, "alternating colors". -/
def stone_other : stone → stone
  | stone.S_BLACK => stone.S_WHITE
  | stone.S_WHITE => stone.S_BLACK
  | s => s

/-- The type `struct move`. -/
structure move where
  coord : coord_t
  color : stone
deriving DecidableEq, Repr

/-- The type `struct move_stat`: the two counters of a ledger entry. -/
structure move_stat where
  games : Int
  wins : Int
deriving DecidableEq, Repr

/-- An array of `struct move_stat`, indexed by the C index. -/
abbrev ledger := Int → move_stat

/-- The ledger after `memset(moves, 0, sizeof(moves))`. -/
def ledger_zero : ledger := fun _ => ⟨0, 0⟩

/-- The write `moves[j].games++`. -/
def games_incr (moves : ledger) (j : Int) : ledger :=
  fun k => if k = j then ⟨(moves k).games + 1, (moves k).wins⟩ else moves k

/-- The write `moves[j].wins += d`. -/
def wins_add (moves : ledger) (j : Int) (d : Int) : ledger :=
  fun k => if k = j then ⟨(moves k).games, (moves k).wins + d⟩ else moves k

/-- The fields of `struct board` the program reads or writes; `rest` is the
part of the position only the rules engine looks at. -/
structure board (β : Type) where
  size : Int
  size2 : Int
  moves : Int
  superko_violation : Bool
  rest : β

/-- The fields of `struct montecarlo` the program reads. -/
structure montecarlo (F : Type) where
  debug_level : Int
  games : Int
  gamelen : Int
  loss_threshold : Int
  resign_ratio : F

/-- The float operations of the program. -/
structure float_ops (F : Type) where
  /-- the literal `0` -/
  zero : F
  /-- the literal `0.5` -/
  half : F
  /-- the quotient `(float) wins / games` -/
  div : Int → Int → F
  /-- the difference `1 - x` -/
  one_minus : F → F

/-- Modelled from the spec: `foreach_point(b)` (a macro of the missing
`board.h`) visits every point of the board, "one entry per point on the board";
the ledgers have `b->size2` entries, visited with `c.pos` increasing from `0`. -/
def foreach_point {β : Type} (b : board β) : List coord_t :=
  (List.range b.size2.toNat).map (fun (k : Nat) => coord_t.mk (k : Int))

/-! ## `best_move_at_board` -/

/-- One round of the loop of `best_move_at_board`. -/
def best_move_step {F : Type} [LinearOrder F] (fl : float_ops F) (moves : ledger)
    ( top_ratio : F) (c : coord_t) : F :=
  if (moves c.pos).games = 0 then top_ratio
  else
    let ratio := fl.div (moves c.pos).wins (moves c.pos).games
    if top_ratio < ratio then ratio else top_ratio

/-- The function `best_move_at_board`. -/
def best_move_at_board {F β : Type} [LinearOrder F] (fl : float_ops F) (b : board β)
    (moves : ledger) : F :=
  (foreach_point b).foldl (best_move_step fl moves) fl.zero

/-- The row `second_moves[c.pos]` of the two-dimensional array `second_moves`,
seen through the flat array `(struct move_stat *) second_moves`. -/
def ledger_row (second_moves : ledger) (size2 : Int) (c : coord_t) : ledger :=
  fun k => second_moves (c.pos * size2 + k)

/-! ## The rules engine and the heuristic oracle -/

/-- The capabilities the program calls but does not define, and the two
sentinel coordinates of `move.h`.  `R` is the state of the random generator the
rules engine and the oracle draw from.

* `board_play_random r b color` is `board_play_random(&b, color, &coord)`: the
  generator, the board and the coordinate after the call.
* `board_play b m` is `board_play(&b, &m)`: the board after the call and the
  returned `int`.
* `group_at b c` tells whether `group_at(&b, c)` is nonzero.
* `domain_hint mc r b color` is `domain_hint(mc, &b, &urgent, color)` called
  with `urgent == pass`: the generator and the value of `urgent` after the call.
  The board is not changed by the call. -/
structure rules (β R F : Type) where
  pass : coord_t
  resign : coord_t
  coord_x : coord_t → Int
  coord_y : coord_t → Int
  board_play_random : R → board β → stone → R × board β × coord_t
  board_play : board β → move → board β × Int
  group_at : board β → coord_t → Bool
  board_fast_score : board β → F
  domain_hint : montecarlo F → R → board β → stone → R × coord_t

/-! ## `play_random_game` -/

/-- Ghost record of one ply of the alternating-play loop: the arguments of the
`domain_hint` call whose answer the ply used, the colour that moved and the
coordinate played. -/
structure ply_record (β : Type) where
  hint_board : board β
  hint_color : stone
  color : stone
  coord : coord_t

/-- The local variables of `play_random_game` that live across the plies. -/
structure playout_state (β R : Type) where
  b2 : board β
  color : stone
  next_move : coord_t
  passes : Int
  rng : R
  plies : List (ply_record β)

/-- How a ply, or the loop of plies, ends: `superko` is the `return -2` of
line 127, `running` is the normal end. -/
inductive play_status (β R : Type) where
  | superko (st : playout_state β R)
  | running (st : playout_state β R)

/-- The body of the loop from the test `!is_pass(urgent)` (line 95) to
`color = stone_other(color)` (line 149).  `hint_board` and `hint_color` are the
arguments of the `domain_hint` call that produced `urgent`. -/
def play_ply {β R F : Type} (env : rules β R F) (mc : montecarlo F)
    (st : playout_state β R) (hint_board : board β) (hint_color : stone)
    (urgent : coord_t) : play_status β R :=
  let played : R × board β × coord_t :=
    if urgent ≠ env.pass then
      let r := env.board_play st.b2 ⟨urgent, st.color⟩
      if r.2 < 0 then env.board_play_random st.rng r.1 st.color
      else (st.rng, r.1, urgent)
    else env.board_play_random st.rng st.b2 st.color
  let rng := played.1
  let b2 := played.2.1
  let coord := played.2.2
  let next_move :=
    if mc.debug_level > 2 ∧ st.next_move = env.pass then coord else st.next_move
  let plies := st.plies ++ [⟨hint_board, hint_color, st.color, coord⟩]
  if b2.superko_violation = true ∧ env.group_at b2 coord = true then
    play_status.superko ⟨b2, st.color, next_move, st.passes, rng, plies⟩
  else
    let b2 := if b2.superko_violation = true then { b2 with superko_violation := false } else b2
    let passes := if coord = env.pass then st.passes + 1 else 0
    play_status.running ⟨b2, stone_other st.color, next_move, passes, rng, plies⟩

/-- The loop `while (gamelen-- && passes < 2)` (lines 89 to 150); the first
argument is the value of `gamelen` at the test. -/
def play_loop {β R F : Type} (env : rules β R F) (mc : montecarlo F) (m_color : stone) :
    Nat → playout_state β R → play_status β R
  | 0, st => play_status.running st
  | gamelen + 1, st =>
    if st.passes < 2 then
      let h := env.domain_hint mc st.rng st.b2 m_color
      match play_ply env mc { st with rng := h.1 } st.b2 m_color h.2 with
      | play_status.superko s => play_status.superko s
      | play_status.running s => play_loop env mc m_color gamelen s
    else play_status.running st

/-- What a call of `play_random_game` leaves behind: the returned `int`, the
coordinate written to `m->coord`, the ledger `moves` and the random generator.
`next_move` and `plies` are ghost outputs: the last value of the local
`next_move` and the plies played after the candidate move. -/
structure play_return (β R : Type) where
  result : Int
  coord : coord_t
  moves : ledger
  rng : R
  next_move : coord_t
  plies : List (ply_record β)

/-- The function `play_random_game(mc, b, moves, m, i)`.  `m_color` is the
field `m->color`; `m->coord` is written before it is read and comes back as
`coord`.  The result is `none` when the division of line 152,
`i % (mc->games/2)`, is a division by zero. -/
def play_random_game {β R F : Type} [LinearOrder F] (env : rules β R F) (fl : float_ops F)
    (mc : montecarlo F) (b : board β) (moves : ledger) (m_color : stone) (_i : Int)
    (rng : R) : Option (play_return β R) :=
  let first := env.board_play_random rng b m_color
  let rng := first.1
  let b2 := first.2.1
  let coord := first.2.2
  if coord = env.pass ∨ b.superko_violation = true then
    some ⟨-1, coord, moves, rng, env.pass, []⟩
  else if env.group_at b2 coord = false then
    some ⟨-3, coord, moves, rng, env.pass, []⟩
  else
    let gamelen : Int := if mc.gamelen - b2.moves < 10 then 10 else mc.gamelen - b2.moves
    let h := env.domain_hint mc rng b m_color
    let st : playout_state β R := ⟨b2, stone_other m_color, env.pass, 0, h.1, []⟩
    let played : play_status β R :=
      if h.2 ≠ env.pass then
        match play_ply env mc st b m_color h.2 with
        | play_status.superko s => play_status.superko s
        | play_status.running s => play_loop env mc m_color gamelen.toNat s
      else play_loop env mc m_color gamelen.toNat st
    match played with
    | play_status.superko s => some ⟨-2, coord, moves, s.rng, s.next_move, s.plies⟩
    | play_status.running s =>
      if mc.games.tdiv 2 = 0 then none
      else
        let score := env.board_fast_score s.b2
        let result : Bool :=
          if m_color = stone.S_WHITE then decide (fl.zero < score) else decide (score < fl.zero)
        let j := coord.pos * b.size2 + s.next_move.pos
        let moves := games_incr moves j
        let moves := if result = false then wins_add moves j 1 else moves
        some ⟨if result then 1 else 0, coord, moves, s.rng, s.next_move, s.plies⟩

/-! ## `montecasino_genmove` -/

/-- The local variables of `montecasino_genmove` that live across the playouts. -/
structure loop_state where
  moves : ledger
  second_moves : ledger
  losses : Int
  i : Int
  superko : Int
  good_games : Int

/-- The locals after the two `memset` calls and the initialisers of lines 208
and 209. -/
def genmove_init : loop_state := ⟨ledger_zero, ledger_zero, 0, 0, 0, 0⟩

/-- The value of a C `int` expression: `x` is its value in the integers, the
result is the 32-bit two's-complement number congruent to `x`. -/
def int_wrap (x : Int) : Int := (x + 2147483648) % 4294967296 - 2147483648

/-- The three ways the body of the `for` loop ends. -/
inductive loop_step where
  | goto_pass_wins (st : loop_state)
  | continue_loop (st : loop_state)
  | break_loop (st : loop_state)

/-- The body of the `for` loop after the call of `play_random_game` returned
`result` and wrote `coord` to `m.coord` (lines 213 to 260); `st` already holds
the second-level ledger the call left.  The product `2 * mc->games` of line 222
is a product of C `int`s and is taken with `int_wrap`; the counters only move
by one from `0` and stay below `mc->games` or the cap, so their arithmetic is
exact. -/
def genmove_body {β R F : Type} (env : rules β R F) (mc : montecarlo F) (b : board β)
    (st : loop_state) (result : Int) (coord : coord_t) : loop_step :=
  if result = -1 then loop_step.goto_pass_wins st
  else if result = -2 then
    if st.superko > int_wrap (2 * mc.games) then loop_step.goto_pass_wins st
    else loop_step.continue_loop { st with i := st.i - 1, superko := st.superko + 1 }
  else if result = -3 then loop_step.continue_loop st
  else
    let st := { st with good_games := st.good_games + 1,
                        moves := games_incr st.moves coord.pos }
    if b.moves < 3 ∧ (env.coord_x coord < 3 ∨ env.coord_x coord > b.size - 4
        ∨ env.coord_y coord < 3 ∨ env.coord_y coord > b.size - 4) then
      loop_step.continue_loop st
    else
      let st := { st with losses := st.losses + (1 - result),
                          moves := wins_add st.moves coord.pos result }
      if st.losses = 0 ∧ st.i = mc.loss_threshold then loop_step.break_loop st
      else loop_step.continue_loop st

/-- The two ways the `for` loop is left: the label `pass_wins`, or the end of
the loop (by its condition or by `break`). -/
inductive loop_exit where
  | pass_wins (st : loop_state)
  | done (st : loop_state)

/-- The `for` loop of `montecasino_genmove` (lines 210 to 261).  The first
argument bounds the number of calls of `play_random_game`; the result is `none`
when more calls are needed or when a call does not return. -/
def genmove_loop {β R F : Type} [LinearOrder F] (env : rules β R F) (fl : float_ops F)
    (mc : montecarlo F) (b : board β) (color : stone) :
    Nat → loop_state → R → Option loop_exit
  | 0, st, _ => if st.i < mc.games then none else some (loop_exit.done st)
  | fuel + 1, st, rng =>
    if st.i < mc.games then
      match play_random_game env fl mc b st.second_moves color st.i rng with
      | none => none
      | some r =>
        match genmove_body env mc b { st with second_moves := r.moves } r.result r.coord with
        | loop_step.goto_pass_wins s => some (loop_exit.pass_wins s)
        | loop_step.break_loop s => some (loop_exit.done s)
        | loop_step.continue_loop s => genmove_loop env fl mc b color fuel { s with i := s.i + 1 } r.rng
    else some (loop_exit.done st)

/-- The value `1 - best_move_at_board(mc, b, second_moves[c.pos])` of line 274. -/
def counter_ratio {β F : Type} [LinearOrder F] (fl : float_ops F) (b : board β)
    (second_moves : ledger) (c : coord_t) : F :=
  fl.one_minus (best_move_at_board fl b (ledger_row second_moves b.size2 c))

/-- One round of the ranking loop (lines 272 to 278); the pair is
`(top_coord, top_ratio)`. -/
def rank_step {β F : Type} [LinearOrder F] (fl : float_ops F) (b : board β)
    (moves second_moves : ledger) (top : coord_t × F) (c : coord_t) : coord_t × F :=
  if (moves c.pos).games = 0 then top
  else
    let ratio := counter_ratio fl b second_moves c
    if top.2 < ratio then (c, ratio) else top

/-- The ranking loop (lines 268 to 281), started from
`top_coord = resign; top_ratio = mc->resign_ratio`.  The array `first_moves`
is written for the diagnostic output only and is left out. -/
def genmove_rank {β R F : Type} [LinearOrder F] (env : rules β R F) (fl : float_ops F)
    (mc : montecarlo F) (b : board β) (moves second_moves : ledger) : coord_t × F :=
  (foreach_point b).foldl (rank_step fl b moves second_moves) (env.resign, mc.resign_ratio)

/-- The values at the label `move_found`: the coordinate returned, the ratio
printed with it, and the locals of the loop. -/
structure genmove_result (F : Type) where
  top_coord : coord_t
  top_ratio : F
  final : loop_state

/-- From the end of the `for` loop to the `return` (lines 263 to 298). -/
def genmove_finish {β R F : Type} [LinearOrder F] (env : rules β R F) (fl : float_ops F)
    (mc : montecarlo F) (b : board β) : loop_exit → genmove_result F
  | loop_exit.pass_wins st => ⟨env.pass, fl.half, st⟩
  | loop_exit.done st =>
    if st.good_games = 0 then ⟨env.pass, fl.half, st⟩
    else
      let top := genmove_rank env fl mc b st.moves st.second_moves
      ⟨top.1, top.2, st⟩

/-- The function `montecasino_genmove(e, b, color)` with `mc = e->data`, run
from the generator state `rng`.  `3 * games + 2` calls of `play_random_game`
are allowed for. -/
def montecasino_genmove {β R F : Type} [LinearOrder F] (env : rules β R F) (fl : float_ops F)
    (mc : montecarlo F) (b : board β) (color : stone) (rng : R) : Option (genmove_result F) :=
  (genmove_loop env fl mc b color (3 * mc.games + 2).toNat genmove_init rng).map
    (genmove_finish env fl mc b)

/-! ## The move generator over a given sequence of playouts -/

/-- The outcomes of a playout, by the names of the specification. -/
inductive outcome where
  | Win
  | Loss
  | Exhausted
  | SuperkoInGame
  | MultiStoneSuicide
deriving DecidableEq, Repr

/-- The `int` that `play_random_game` returns for an outcome (lines 40 to 42). -/
def outcome.result : outcome → Int
  | outcome.Win => 1
  | outcome.Loss => 0
  | outcome.Exhausted => -1
  | outcome.SuperkoInGame => -2
  | outcome.MultiStoneSuicide => -3

/-- What the caller sees of one call of `play_random_game`: the outcome, the
candidate coordinate written to `m->coord`, and the coordinate held by the
local `next_move` at the end of the playout. -/
structure playout where
  outcome : outcome
  coord : coord_t
  next_move : coord_t
deriving DecidableEq, Repr

/-- The effect of a playout on the ledger passed to `play_random_game`
(lines 162 to 165, reached by scored playouts only). -/
def playout.record (p : playout) (size2 : Int) (moves : ledger) : ledger :=
  let j := p.coord.pos * size2 + p.next_move.pos
  match p.outcome with
  | outcome.Win => games_incr moves j
  | outcome.Loss => wins_add (games_incr moves j) j 1
  | _ => moves

/-- The `for` loop of `montecasino_genmove`, with the successive calls of
`play_random_game` answered by the playouts of a list.  The result is `none`
when the loop asks for a playout and the list has run out. -/
def run_playouts {β R F : Type} (env : rules β R F) (mc : montecarlo F) (b : board β) :
    loop_state → List playout → Option loop_exit
  | st, [] => if st.i < mc.games then none else some (loop_exit.done st)
  | st, p :: ps =>
    if st.i < mc.games then
      match genmove_body env mc b { st with second_moves := p.record b.size2 st.second_moves }
          p.outcome.result p.coord with
      | loop_step.goto_pass_wins s => some (loop_exit.pass_wins s)
      | loop_step.break_loop s => some (loop_exit.done s)
      | loop_step.continue_loop s => run_playouts env mc b { s with i := s.i + 1 } ps
    else some (loop_exit.done st)

/-- The function `montecasino_genmove` on a given sequence of playouts. -/
def genmove_playouts {β R F : Type} [LinearOrder F] (env : rules β R F) (fl : float_ops F)
    (mc : montecarlo F) (b : board β) (ps : List playout) : Option (genmove_result F) :=
  (run_playouts env mc b genmove_init ps).map (genmove_finish env fl mc b)

/-! ## Auxiliary definitions for stating the properties -/

/-- The state a round of the `for` loop ends with. -/
def loop_step.state : loop_step → loop_state
  | loop_step.goto_pass_wins st => st
  | loop_step.continue_loop st => st
  | loop_step.break_loop st => st

/-- The state the `for` loop is left with. -/
def loop_exit.state : loop_exit → loop_state
  | loop_exit.pass_wins st => st
  | loop_exit.done st => st

/-- The ledger invariant of the specification: `0 ≤ wins ≤ games` in every
entry. -/
def ledger_ok (l : ledger) : Prop :=
  ∀ k : Int, 0 ≤ (l k).wins ∧ (l k).wins ≤ (l k).games

/-- The pairs `(moves, second_moves)` of first-level and second-level ledger
that one round of the `for` loop goes through, in order: at the call of
`play_random_game`; for a scored playout after `moves[j].games++` (line 163);
at the return of `play_random_game`; for a scored playout after
`moves[m.coord.pos].games++` (line 242); at the end of the round. -/
def round_trace {β R F : Type} (env : rules β R F) (mc : montecarlo F) (b : board β)
    (st : loop_state) (p : playout) : List (ledger × ledger) :=
  let j := p.coord.pos * b.size2 + p.next_move.pos
  let second := p.record b.size2 st.second_moves
  let scored : Bool := decide (p.outcome = outcome.Win ∨ p.outcome = outcome.Loss)
  let last := (genmove_body env mc b { st with second_moves := second }
      p.outcome.result p.coord).state
  [(st.moves, st.second_moves)]
    ++ (if scored then [(st.moves, games_incr st.second_moves j)] else [])
    ++ [(st.moves, second)]
    ++ (if scored then [(games_incr st.moves p.coord.pos, second)] else [])
    ++ [(last.moves, last.second_moves)]

/-- The pairs `(moves, second_moves)` the `for` loop goes through on a sequence
of playouts, round after round. -/
def genmove_trace {β R F : Type} (env : rules β R F) (mc : montecarlo F) (b : board β) :
    loop_state → List playout → List (ledger × ledger)
  | st, [] => [(st.moves, st.second_moves)]
  | st, p :: ps =>
    if st.i < mc.games then
      round_trace env mc b st p ++
        (match genmove_body env mc b { st with second_moves := p.record b.size2 st.second_moves }
            p.outcome.result p.coord with
          | loop_step.continue_loop s => genmove_trace env mc b { s with i := s.i + 1 } ps
          | _ => [])
    else [(st.moves, st.second_moves)]

/-- The outcome named by a return value of `play_random_game`. -/
def outcome_of_result (result : Int) : outcome :=
  if result = 1 then outcome.Win
  else if result = 0 then outcome.Loss
  else if result = -1 then outcome.Exhausted
  else if result = -2 then outcome.SuperkoInGame
  else outcome.MultiStoneSuicide

/-- The playout a call of `play_random_game` amounts to for its caller. -/
def play_return.playout {β R : Type} (r : play_return β R) : playout :=
  ⟨outcome_of_result r.result, r.coord, r.next_move⟩

/-- An upper bound of the number of calls of `play_random_game` the `for` loop
can still make: none when the loop condition fails, else the rounds left of the
budget and the discards left before the superko cap is passed. -/
def loop_budget {F : Type} (mc : montecarlo F) (st : loop_state) : Nat :=
  if st.i < mc.games then
    (mc.games - st.i).toNat + (int_wrap (2 * mc.games) + 2 - st.superko).toNat
  else 0

/-- The decision, its ratio and the two ledgers at the end of
`montecasino_genmove`. -/
def genmove_result.view {F : Type} (res : genmove_result F) : coord_t × F × ledger × ledger :=
  (res.top_coord, res.top_ratio, res.final.moves, res.final.second_moves)

/-- Two states of the loop that differ in the superko counter at most. -/
def same_but_superko (s t : loop_state) : Prop :=
  s.moves = t.moves ∧ s.second_moves = t.second_moves ∧ s.losses = t.losses ∧
    s.i = t.i ∧ s.good_games = t.good_games

/-- Two ends of the loop that differ in the superko counter at most. -/
def same_exit : Option loop_exit → Option loop_exit → Prop
  | some (loop_exit.pass_wins s), some (loop_exit.pass_wins t) => same_but_superko s t
  | some (loop_exit.done s), some (loop_exit.done t) => same_but_superko s t
  | none, none => True
  | _, _ => False

/-- The end of a round with the superko counter set to `k`. -/
def loop_step.with_superko (k : Int) : loop_step → loop_step
  | loop_step.goto_pass_wins s => loop_step.goto_pass_wins { s with superko := k }
  | loop_step.continue_loop s => loop_step.continue_loop { s with superko := k }
  | loop_step.break_loop s => loop_step.break_loop { s with superko := k }

/-- The alternating-play part of `play_random_game` (lines 68 to 150), run from
what the candidate move of line 50 left: how the loop of plies ends, with the
final board, the last `next_move` and the plies played. -/
def play_game {β R F : Type} (env : rules β R F) (mc : montecarlo F) (b : board β)
    (m_color : stone) (rng : R) : play_status β R :=
  let first := env.board_play_random rng b m_color
  let gamelen : Int :=
    if mc.gamelen - first.2.1.moves < 10 then 10 else mc.gamelen - first.2.1.moves
  let h := env.domain_hint mc first.1 b m_color
  let st : playout_state β R := ⟨first.2.1, stone_other m_color, env.pass, 0, h.1, []⟩
  if h.2 ≠ env.pass then
    match play_ply env mc st b m_color h.2 with
    | play_status.superko s => play_status.superko s
    | play_status.running s => play_loop env mc m_color gamelen.toNat s
  else play_loop env mc m_color gamelen.toNat st

/-- The state the next round of the `for` loop starts with, after a round that
does not leave the loop: the state the body ends with, and `i++`. -/
def next_round {β R F : Type} (env : rules β R F) (mc : montecarlo F) (b : board β)
    (st : loop_state) (p : playout) : loop_state :=
  { (genmove_body env mc b { st with second_moves := p.record b.size2 st.second_moves }
      p.outcome.result p.coord).state with
    i := (genmove_body env mc b { st with second_moves := p.record b.size2 st.second_moves }
      p.outcome.result p.coord).state.i + 1 }

/-- The state a ply, or the loop of plies, ends with. -/
def play_status.state {β R : Type} : play_status β R → playout_state β R
  | play_status.superko s => s
  | play_status.running s => s

/-- The states of the playout at the start of the rounds the loop
`while (gamelen-- && passes < 2)` runs: the current playout position `b2` and
the colour `color` about to move in each round. -/
def play_loop_starts {β R F : Type} (env : rules β R F) (mc : montecarlo F) (m_color : stone) :
    Nat → playout_state β R → List (playout_state β R)
  | 0, _ => []
  | gamelen + 1, st =>
    if st.passes < 2 then
      st :: (match play_ply env mc { st with rng := (env.domain_hint mc st.rng st.b2 m_color).1 }
          st.b2 m_color (env.domain_hint mc st.rng st.b2 m_color).2 with
        | play_status.superko _ => []
        | play_status.running s => play_loop_starts env mc m_color gamelen s)
    else []

/-- The states of the playout at the start of the plies `play_game` plays: a
ply entered at `play_urgent` first, when the hint asked before the loop is not
pass, then the rounds of the loop. -/
def play_game_starts {β R F : Type} (env : rules β R F) (mc : montecarlo F) (b : board β)
    (m_color : stone) (rng : R) : List (playout_state β R) :=
  let first := env.board_play_random rng b m_color
  let gamelen : Int :=
    if mc.gamelen - first.2.1.moves < 10 then 10 else mc.gamelen - first.2.1.moves
  let h := env.domain_hint mc first.1 b m_color
  let st : playout_state β R := ⟨first.2.1, stone_other m_color, env.pass, 0, h.1, []⟩
  if h.2 ≠ env.pass then
    st :: (match play_ply env mc st b m_color h.2 with
      | play_status.superko _ => []
      | play_status.running s => play_loop_starts env mc m_color gamelen.toNat s)
  else play_loop_starts env mc m_color gamelen.toNat st

/-- What the ghost record of a ply tells of the oracle query and the mover. -/
def ply_record.query {β : Type} (p : ply_record β) : board β × stone × stone :=
  (p.hint_board, p.hint_color, p.color)

/-- The invariant of the pass counter: `passes` is not negative, is at least
`1` when the last coordinate played is pass, and two passes in a row are the
last two coordinates played and make `passes` at least `2`. -/
def passes_ok (pass : coord_t) (l : List coord_t) (passes : Int) : Prop :=
  0 ≤ passes ∧ (l.getLast? = some pass → 1 ≤ passes) ∧
    ∀ k : Nat, l[k]? = some pass → l[k + 1]? = some pass → l.length = k + 2 ∧ 2 ≤ passes

/-- Two passes in a row are the last two coordinates of the list. -/
def ends_at_two_passes (pass : coord_t) (l : List coord_t) : Prop :=
  ∀ k : Nat, l[k]? = some pass → l[k + 1]? = some pass → l.length = k + 2

/-! ## Concrete inputs for evaluating the definitions -/

/-- Float operations on the rationals, for evaluating the definitions. -/
def rat_ops : float_ops ℚ :=
  ⟨0, 1 / 2, fun w g => (w : ℚ) / (g : ℚ), fun x => 1 - x⟩

/-- A board of four points (`size = 2`) after five moves, for evaluating the
definitions. -/
def demo_board : board Unit := ⟨2, 4, 5, false, ()⟩

/-- A ledger row with the entries `1/2` and `3/4` and two entries without games. -/
def demo_row : ledger := fun k =>
  if k = 0 then ⟨2, 1⟩ else if k = 2 then ⟨4, 3⟩ else ⟨0, 0⟩

/-- A board of four points whose random generator is the list of the
coordinates `board_play_random` will hand out (pass among them), then pass.
Every move is legal and is counted in `moves`, the point `3` is a suicide (no
group is left there), superko never occurs, the oracle has no hint, and the
score is `1` (white wins) after an even number of moves, `-1` after an odd
number. -/
def demo_rules : rules Unit (List coord_t) ℚ where
  pass := ⟨-1⟩
  resign := ⟨-2⟩
  coord_x := fun c => c.pos % 2
  coord_y := fun c => c.pos / 2
  board_play_random := fun r b _ =>
    match r with
    | [] => ([], b, ⟨-1⟩)
    | c :: r => (r, { b with moves := b.moves + 1 }, c)
  board_play := fun b _ => ({ b with moves := b.moves + 1 }, 0)
  group_at := fun _ c => decide (c.pos ≠ 3)
  board_fast_score := fun b => if b.moves % 2 = 0 then 1 else -1
  domain_hint := fun _ r _ _ => (r, ⟨-1⟩)

/-- The rules engine `demo_rules` on a position without a legal move:
`board_play_random` yields pass. -/
def full_rules : rules Unit (List coord_t) ℚ :=
  { demo_rules with board_play_random := fun r b _ => (r, b, ⟨-1⟩) }

/-- Engine parameters: a budget of four playouts of at most twenty moves, a
resignation threshold of `1/10`, the early-stop index `3`. -/
def demo_mc : montecarlo ℚ := ⟨0, 4, 20, 3, 1 / 10⟩

/-- A sequence of four scored playouts on the board of four points: point `0`
answered at `1` (a loss, then a win), point `2` answered at `1` (a win) and
at `3` (a loss). -/
def demo_playouts : List playout :=
  [⟨outcome.Loss, ⟨0⟩, ⟨1⟩⟩, ⟨outcome.Win, ⟨2⟩, ⟨1⟩⟩, ⟨outcome.Win, ⟨0⟩, ⟨1⟩⟩,
   ⟨outcome.Loss, ⟨2⟩, ⟨3⟩⟩]

/-- The locals of the loop after the playouts `demo_playouts`. -/
def demo_final : loop_state :=
  match run_playouts demo_rules demo_mc demo_board genmove_init demo_playouts with
  | some ex => ex.state
  | none => genmove_init

/-- A playout whose outcome is `SuperkoInGame`. -/
def demo_superko : playout := ⟨outcome.SuperkoInGame, ⟨0⟩, ⟨-1⟩⟩

/-- The playouts `demo_playouts` with three superko playouts among them. -/
def demo_playouts_superko : List playout :=
  [demo_superko, ⟨outcome.Loss, ⟨0⟩, ⟨1⟩⟩, demo_superko, ⟨outcome.Win, ⟨2⟩, ⟨1⟩⟩,
   ⟨outcome.Win, ⟨0⟩, ⟨1⟩⟩, demo_superko, ⟨outcome.Loss, ⟨2⟩, ⟨3⟩⟩]

/-- The call of `play_random_game` for white on `demo_board` when the random
generator hands out the suicide point `3`: the return value. -/
def demo_suicide_return : play_return Unit (List coord_t) :=
  ⟨-3, ⟨3⟩, ledger_zero, [⟨0⟩], ⟨-1⟩, []⟩

/-- The call of `play_random_game` for white on `demo_board` when the random
generator hands out the candidate `2`, the answer `1` and two passes: the return
value, a loss for white after nine moves. -/
def demo_scored_return : play_return Unit (List coord_t) :=
  match play_random_game demo_rules rat_ops { demo_mc with debug_level := 3 } demo_board
      ledger_zero stone.S_WHITE 0 [⟨2⟩, ⟨1⟩, ⟨-1⟩, ⟨-1⟩] with
  | some r => r
  | none => demo_suicide_return

/-- The first-level ledger `demo_final.moves` with every `wins` counter set to
zero. -/
def demo_moves_no_wins : ledger := fun k => ⟨(demo_final.moves k).games, 0⟩

/-- Engine parameters with a budget of two playouts and the early-stop index
`0`. -/
def early_mc : montecarlo ℚ := ⟨0, 2, 20, 0, 1 / 10⟩

/-- Two won playouts, the first for point `2`, the second for point `0`. -/
def early_playouts : List playout :=
  [⟨outcome.Win, ⟨2⟩, ⟨1⟩⟩, ⟨outcome.Win, ⟨0⟩, ⟨1⟩⟩]

/-- The playouts `demo_playouts` in another order. -/
def demo_playouts_permuted : List playout :=
  [⟨outcome.Loss, ⟨2⟩, ⟨3⟩⟩, ⟨outcome.Win, ⟨0⟩, ⟨1⟩⟩, ⟨outcome.Loss, ⟨0⟩, ⟨1⟩⟩,
   ⟨outcome.Win, ⟨2⟩, ⟨1⟩⟩]

/-- A random stream for four playouts on `demo_board`: the candidate `1`
answered at `0` and `2` (won by white), then the candidate `2` answered at `0`
(lost by white), each twice. -/
def debug_rng : List coord_t :=
  [⟨1⟩, ⟨0⟩, ⟨2⟩, ⟨-1⟩, ⟨-1⟩, ⟨2⟩, ⟨0⟩, ⟨-1⟩, ⟨-1⟩,
   ⟨1⟩, ⟨0⟩, ⟨2⟩, ⟨-1⟩, ⟨-1⟩, ⟨2⟩, ⟨0⟩, ⟨-1⟩, ⟨-1⟩]

/-- The rules engine `demo_rules` with positional superko: playing point `1`
in the position after five moves sets the superko flag, which stays set; the
pass coordinate holds no group. -/
def superko_rules : rules Unit (List coord_t) ℚ :=
  { demo_rules with
    board_play_random := fun r b _ =>
      match r with
      | [] => ([], b, ⟨-1⟩)
      | c :: r =>
        (r, { b with moves := b.moves + 1,
                     superko_violation :=
                       b.superko_violation || decide (c.pos = 1 ∧ b.moves = 5) }, c)
    group_at := fun _ c => decide (0 ≤ c.pos ∧ c.pos ≠ 3) }

/-- A random stream for four playouts that start with point `1` and go on with
two passes. -/
def superko_rng : List coord_t :=
  [⟨1⟩, ⟨-1⟩, ⟨-1⟩, ⟨1⟩, ⟨-1⟩, ⟨-1⟩, ⟨1⟩, ⟨-1⟩, ⟨-1⟩, ⟨1⟩, ⟨-1⟩, ⟨-1⟩]

/-- A board of nine lines with its border (`size = 11`), before the first move. -/
def opening_board : board Unit := ⟨11, 121, 0, false, ()⟩

/-- The rules engine `demo_rules` with the coordinates of `opening_board`. -/
def opening_rules : rules Unit (List coord_t) ℚ :=
  { demo_rules with coord_x := fun c => c.pos % 11, coord_y := fun c => c.pos / 11 }

/-- Two won playouts for the corner point `(1, 1)` of `opening_board`. -/
def opening_playouts : List playout :=
  [⟨outcome.Win, ⟨12⟩, ⟨24⟩⟩, ⟨outcome.Win, ⟨12⟩, ⟨24⟩⟩]

/-- The rules engine `demo_rules` with an oracle that always suggests point
`0`. -/
def urgent_rules : rules Unit (List coord_t) ℚ :=
  { demo_rules with domain_hint := fun _ r _ _ => (r, ⟨0⟩) }

/-- Engine parameters with a budget of `2^30 + 1` playouts, whose double is no
`int`, and the early-stop index `0`. -/
def overflow_mc : montecarlo ℚ := ⟨0, 1073741825, 20, 0, 1 / 10⟩

/-- One superko playout, then a won playout for point `2`. -/
def overflow_playouts : List playout :=
  [demo_superko, ⟨outcome.Win, ⟨2⟩, ⟨1⟩⟩]

/-! ## Properties of `best_move_at_board` -/

theorem mem_foreach_point {β : Type} (b : board β) (c : coord_t) :
    c ∈ foreach_point b ↔ 0 ≤ c.pos ∧ c.pos < b.size2 := by
  unfold foreach_point
  simp only [List.mem_map, List.mem_range]
  constructor
  · rintro ⟨k, hk, rfl⟩
    simp only
    omega
  · rintro ⟨h0, h1⟩
    refine ⟨c.pos.toNat, by omega, ?_⟩
    cases c with
    | mk p =>
      simp only [coord_t.mk.injEq]
      simp only at h0
      omega

/-- The scan never lowers the running maximum. -/
theorem best_fold_ge_init {F : Type} [LinearOrder F] (fl : float_ops F) (moves : ledger)
    (l : List coord_t) (t : F) : t ≤ l.foldl (best_move_step fl moves) t := by
  induction l generalizing t with
  | nil => exact le_refl t
  | cons c l ih =>
    simp only [List.foldl_cons]
    refine le_trans ?_ (ih _)
    unfold best_move_step
    split
    · exact le_refl t
    · simp only
      split
      · exact le_of_lt (by assumption)
      · exact le_refl t

/-- The scan ends above the ratio of every visited entry that has games. -/
theorem best_fold_ge_entry {F : Type} [LinearOrder F] (fl : float_ops F) (moves : ledger)
    (l : List coord_t) (t : F) (d : coord_t) (hd : d ∈ l) (hg : (moves d.pos).games ≠ 0) :
    fl.div (moves d.pos).wins (moves d.pos).games ≤ l.foldl (best_move_step fl moves) t := by
  induction l generalizing t with
  | nil => cases hd
  | cons c l ih =>
    simp only [List.foldl_cons]
    rcases List.mem_cons.mp hd with rfl | hd
    · refine le_trans ?_ (best_fold_ge_init fl moves l _)
      unfold best_move_step
      rw [if_neg hg]
      simp only
      split
      · exact le_refl _
      · exact not_lt.mp (by assumption)
    · exact ih _ hd

/-- The scan ends at its start value or at the ratio of a visited entry. -/
theorem best_fold_attained {F : Type} [LinearOrder F] (fl : float_ops F) (moves : ledger)
    (l : List coord_t) (t : F) :
    l.foldl (best_move_step fl moves) t = t ∨
      ∃ c ∈ l, (moves c.pos).games ≠ 0 ∧
        l.foldl (best_move_step fl moves) t = fl.div (moves c.pos).wins (moves c.pos).games := by
  induction l generalizing t with
  | nil => exact Or.inl rfl
  | cons c l ih =>
    simp only [List.foldl_cons]
    rcases ih (best_move_step fl moves t c) with h | ⟨e, he, hg, h⟩
    · rw [h]
      unfold best_move_step
      split
      · exact Or.inl rfl
      · simp only
        split
        · exact Or.inr ⟨c, List.mem_cons_self _ _, by assumption, rfl⟩
        · exact Or.inl rfl
    · exact Or.inr ⟨e, List.mem_cons_of_mem _ he, hg, h⟩

/-- The float quotient of `rat_ops` is not negative on counters. -/
theorem rat_ops_div_nonneg (w g : Int) (hw : 0 ≤ w) (hg : 0 < g) :
    rat_ops.zero ≤ rat_ops.div w g := by
  show (0 : ℚ) ≤ (w : ℚ) / (g : ℚ)
  exact div_nonneg (by exact_mod_cast hw) (by exact_mod_cast hg.le)

/-- C1: on a ledger row whose counters are not negative, `best_move_at_board`
returns `0` when no entry of the row has `games > 0`, and otherwise returns the
largest quotient `wins / games` of the entries with `games > 0`: it is the
quotient of one such entry and no such entry has a larger one. -/
theorem best_move_at_board_max {F β : Type} [LinearOrder F] (fl : float_ops F)
    (b : board β) (moves : ledger)
    (hdiv : ∀ w g : Int, 0 ≤ w → 0 < g → fl.zero ≤ fl.div w g)
    (hrow : ∀ k : Int, 0 ≤ k → k < b.size2 → 0 ≤ (moves k).games ∧ 0 ≤ (moves k).wins) :
    ((∀ k : Int, 0 ≤ k → k < b.size2 → ¬ 0 < (moves k).games) →
        best_move_at_board fl b moves = fl.zero) ∧
    ((∃ k : Int, 0 ≤ k ∧ k < b.size2 ∧ 0 < (moves k).games) →
        (∃ k : Int, 0 ≤ k ∧ k < b.size2 ∧ 0 < (moves k).games ∧
          best_move_at_board fl b moves = fl.div (moves k).wins (moves k).games) ∧
        (∀ k : Int, 0 ≤ k → k < b.size2 → 0 < (moves k).games →
          fl.div (moves k).wins (moves k).games ≤ best_move_at_board fl b moves)) := by
  have hpos : ∀ c : coord_t, c ∈ foreach_point b → (moves c.pos).games ≠ 0 →
      0 < (moves c.pos).games := by
    intro c hc hg
    have h := (mem_foreach_point b c).mp hc
    have h2 := (hrow c.pos h.1 h.2).1
    omega
  have hub : ∀ k : Int, 0 ≤ k → k < b.size2 → 0 < (moves k).games →
      fl.div (moves k).wins (moves k).games ≤ best_move_at_board fl b moves := by
    intro k h0 h1 hg
    have hmem : (⟨k⟩ : coord_t) ∈ foreach_point b := (mem_foreach_point b ⟨k⟩).mpr ⟨h0, h1⟩
    exact best_fold_ge_entry fl moves (foreach_point b) fl.zero ⟨k⟩ hmem (by simp only; omega)
  refine ⟨?_, ?_⟩
  · intro hnone
    rcases best_fold_attained fl moves (foreach_point b) fl.zero with h | ⟨c, hc, hg, _⟩
    · exact h
    · have h := (mem_foreach_point b c).mp hc
      exact absurd (hpos c hc hg) (hnone c.pos h.1 h.2)
  · rintro ⟨k, h0, h1, hg⟩
    refine ⟨?_, hub⟩
    rcases best_fold_attained fl moves (foreach_point b) fl.zero with h | ⟨c, hc, hgc, h⟩
    · refine ⟨k, h0, h1, hg, ?_⟩
      apply le_antisymm
      · unfold best_move_at_board
        rw [h]
        exact hdiv _ _ (hrow k h0 h1).2 hg
      · exact hub k h0 h1 hg
    · have hm := (mem_foreach_point b c).mp hc
      exact ⟨c.pos, hm.1, hm.2, hpos c hc hgc, h⟩

/-- C1, at a row of four entries over the rationals. -/
theorem best_move_at_board_max_witness :
    (∃ k : Int, 0 ≤ k ∧ k < demo_board.size2 ∧ 0 < (demo_row k).games ∧
        best_move_at_board rat_ops demo_board demo_row
          = rat_ops.div (demo_row k).wins (demo_row k).games) ∧
      (∀ k : Int, 0 ≤ k → k < demo_board.size2 → 0 < (demo_row k).games →
        rat_ops.div (demo_row k).wins (demo_row k).games
          ≤ best_move_at_board rat_ops demo_board demo_row) :=
  (best_move_at_board_max rat_ops demo_board demo_row rat_ops_div_nonneg
    (by
      intro k _ _
      unfold demo_row
      split
      · decide
      · split <;> decide)).2 ⟨0, by decide, by decide, by decide⟩

/-! ## The ledger invariant -/

theorem ledger_ok_zero : ledger_ok ledger_zero := by
  intro k
  simp [ledger_zero]

theorem ledger_ok_games_incr (l : ledger) (j : Int) (h : ledger_ok l) :
    ledger_ok (games_incr l j) := by
  intro k
  have hk := h k
  unfold games_incr
  split
  · simp only
    omega
  · exact hk

/-- A win may be added right after the game it belongs to. -/
theorem ledger_ok_wins_add (l : ledger) (j d : Int) (h : ledger_ok l) (h0 : 0 ≤ d)
    (h1 : d ≤ 1) : ledger_ok (wins_add (games_incr l j) j d) := by
  intro k
  have hk := h k
  unfold wins_add games_incr
  split
  · simp only
    omega
  · exact hk

theorem ledger_ok_record (p : playout) (size2 : Int) (l : ledger) (h : ledger_ok l) :
    ledger_ok (p.record size2 l) := by
  unfold playout.record
  simp only
  split
  · exact ledger_ok_games_incr _ _ h
  · exact ledger_ok_wins_add _ _ 1 h (by decide) (by decide)
  · exact h

/-- The return values of `play_random_game`. -/
theorem outcome_result_cases (o : outcome) :
    o.result = 1 ∨ o.result = 0 ∨ o.result = -1 ∨ o.result = -2 ∨ o.result = -3 := by
  cases o <;> simp [outcome.result]

/-- A round of the `for` loop keeps the ledger invariant. -/
theorem genmove_body_ok {β R F : Type} (env : rules β R F) (mc : montecarlo F) (b : board β)
    (st : loop_state) (result : Int) (coord : coord_t)
    (hr : result = 1 ∨ result = 0 ∨ result = -1 ∨ result = -2 ∨ result = -3)
    (hm : ledger_ok st.moves) :
    ledger_ok (genmove_body env mc b st result coord).state.moves ∧
      (genmove_body env mc b st result coord).state.second_moves = st.second_moves := by
  unfold genmove_body
  split
  · exact ⟨hm, rfl⟩
  · split
    · split
      · exact ⟨hm, rfl⟩
      · exact ⟨hm, rfl⟩
    · split
      · exact ⟨hm, rfl⟩
      · have h01 : 0 ≤ result ∧ result ≤ 1 := by omega
        simp only
        split
        · exact ⟨ledger_ok_games_incr _ _ hm, rfl⟩
        · split
          · exact ⟨ledger_ok_wins_add _ _ _ hm h01.1 h01.2, rfl⟩
          · exact ⟨ledger_ok_wins_add _ _ _ hm h01.1 h01.2, rfl⟩

/-- Every pair of ledgers a round goes through keeps the invariant. -/
theorem round_trace_ok {β R F : Type} (env : rules β R F) (mc : montecarlo F) (b : board β)
    (st : loop_state) (p : playout) (hm : ledger_ok st.moves) (hs : ledger_ok st.second_moves) :
    ∀ x ∈ round_trace env mc b st p, ledger_ok x.1 ∧ ledger_ok x.2 := by
  have hrec := ledger_ok_record p b.size2 st.second_moves hs
  have hbody := genmove_body_ok env mc b
    { st with second_moves := p.record b.size2 st.second_moves } p.outcome.result p.coord
    (outcome_result_cases p.outcome) hm
  intro x hx
  unfold round_trace at hx
  simp only [List.mem_append, List.mem_singleton] at hx
  rcases hx with (((hx | hx) | hx) | hx) | hx
  · rw [hx]; exact ⟨hm, hs⟩
  · split at hx
    · rw [List.mem_singleton.mp hx]
      exact ⟨hm, ledger_ok_games_incr _ _ hs⟩
    · cases hx
  · rw [hx]; exact ⟨hm, hrec⟩
  · split at hx
    · rw [List.mem_singleton.mp hx]
      exact ⟨ledger_ok_games_incr _ _ hm, hrec⟩
    · cases hx
  · rw [hx]
    refine ⟨hbody.1, ?_⟩
    rw [hbody.2]
    exact hrec

/-- The invariant along a run that starts from ledgers with the invariant. -/
theorem genmove_trace_ok {β R F : Type} (env : rules β R F) (mc : montecarlo F) (b : board β)
    (ps : List playout) (st : loop_state) (hm : ledger_ok st.moves)
    (hs : ledger_ok st.second_moves) :
    ∀ x ∈ genmove_trace env mc b st ps, ledger_ok x.1 ∧ ledger_ok x.2 := by
  induction ps generalizing st with
  | nil =>
    intro x hx
    simp only [genmove_trace, List.mem_singleton] at hx
    rw [hx]; exact ⟨hm, hs⟩
  | cons p ps ih =>
    intro x hx
    unfold genmove_trace at hx
    split at hx
    · rcases List.mem_append.mp hx with hx | hx
      · exact round_trace_ok env mc b st p hm hs x hx
      · have hrec := ledger_ok_record p b.size2 st.second_moves hs
        have hbody := genmove_body_ok env mc b
          { st with second_moves := p.record b.size2 st.second_moves } p.outcome.result p.coord
          (outcome_result_cases p.outcome) hm
        split at hx
        · rename_i s heq
          rw [heq] at hbody
          simp only [loop_step.state] at hbody
          exact ih { s with i := s.i + 1 } hbody.1 (by rw [hbody.2]; exact hrec) x hx
        · cases hx
    · simp only [List.mem_singleton] at hx
      rw [hx]; exact ⟨hm, hs⟩

/-- C2: started from the zeroed ledgers, every pair of ledgers
`(moves, second_moves)` that the playout loop of `montecasino_genmove` goes
through, on every sequence of playouts and also between a `games` increment and
the `wins` increment that follows it, has `0 ≤ wins ≤ games` in every entry. -/
theorem ledger_invariant {β R F : Type} (env : rules β R F) (mc : montecarlo F) (b : board β)
    (ps : List playout) :
    ∀ x ∈ genmove_trace env mc b genmove_init ps,
      (∀ k : Int, 0 ≤ (x.1 k).wins ∧ (x.1 k).wins ≤ (x.1 k).games) ∧
      (∀ k : Int, 0 ≤ (x.2 k).wins ∧ (x.2 k).wins ≤ (x.2 k).games) :=
  genmove_trace_ok env mc b ps genmove_init ledger_ok_zero ledger_ok_zero

/-- C2, at the second pair of ledgers of the run on `demo_playouts`: the pair
between `moves[j].games++` and `moves[j].wins++` of the first playout. -/
theorem ledger_invariant_witness :
    (∀ k : Int, 0 ≤ (ledger_zero k).wins ∧ (ledger_zero k).wins ≤ (ledger_zero k).games) ∧
    (∀ k : Int, 0 ≤ (games_incr ledger_zero 1 k).wins ∧
      (games_incr ledger_zero 1 k).wins ≤ (games_incr ledger_zero 1 k).games) :=
  ledger_invariant demo_rules demo_mc demo_board demo_playouts
    (ledger_zero, games_incr ledger_zero 1) (List.Mem.tail _ (List.Mem.head _))

/-! ## Calls of `play_random_game` as playouts -/

/-- The return of a scored playout, for either value of `result`. -/
theorem scored_return_playout {β R : Type} (result : Bool) (coord next_move : coord_t)
    (size2 : Int) (moves : ledger) (rng : R) (plies : List (ply_record β)) :
    (play_return.mk (if result then 1 else 0) coord
        (if result = false then
          wins_add (games_incr moves (coord.pos * size2 + next_move.pos))
            (coord.pos * size2 + next_move.pos) 1
        else games_incr moves (coord.pos * size2 + next_move.pos))
        rng next_move plies).playout.outcome.result = (if result then 1 else 0) ∧
    (if result = false then
        wins_add (games_incr moves (coord.pos * size2 + next_move.pos))
          (coord.pos * size2 + next_move.pos) 1
      else games_incr moves (coord.pos * size2 + next_move.pos)) =
      (play_return.mk (if result then 1 else 0) coord
        (if result = false then
          wins_add (games_incr moves (coord.pos * size2 + next_move.pos))
            (coord.pos * size2 + next_move.pos) 1
        else games_incr moves (coord.pos * size2 + next_move.pos))
        rng next_move plies).playout.record size2 moves := by
  cases result <;> simp [play_return.playout, playout.record, outcome_of_result, outcome.result]

/-- A call of `play_random_game` that returns does to its caller what its
playout says: the returned `int` is the code of the outcome and the ledger is
the recorded one. -/
theorem play_random_game_playout {β R F : Type} [LinearOrder F] (env : rules β R F)
    (fl : float_ops F) (mc : montecarlo F) (b : board β) (moves : ledger) (m_color : stone)
    (i : Int) (rng : R) (r : play_return β R)
    (h : play_random_game env fl mc b moves m_color i rng = some r) :
    r.playout.outcome.result = r.result ∧ r.moves = r.playout.record b.size2 moves := by
  unfold play_random_game at h
  simp only at h
  split at h
  · cases h
    exact ⟨rfl, rfl⟩
  · split at h
    · cases h
      exact ⟨rfl, rfl⟩
    · split at h
      · cases h
        exact ⟨rfl, rfl⟩
      · split at h
        · cases h
        · cases h
          exact scored_return_playout _ _ _ _ _ _ _

/-- A run of the `for` loop over calls of `play_random_game` is a run over the
sequence of the playouts these calls amount to. -/
theorem genmove_loop_run {β R F : Type} [LinearOrder F] (env : rules β R F) (fl : float_ops F)
    (mc : montecarlo F) (b : board β) (color : stone) (fuel : Nat) (st : loop_state) (rng : R)
    (ex : loop_exit) (h : genmove_loop env fl mc b color fuel st rng = some ex) :
    ∃ ps : List playout, ps.length ≤ fuel ∧ run_playouts env mc b st ps = some ex ∧
      ∀ p ∈ ps, ∃ (moves : ledger) (i : Int) (r0 : R) (r : play_return β R),
        play_random_game env fl mc b moves color i r0 = some r ∧ r.playout = p := by
  induction fuel generalizing st rng with
  | zero =>
    refine ⟨[], le_refl _, ?_, ?_⟩
    · simpa [genmove_loop, run_playouts] using h
    · intro p hp; cases hp
  | succ fuel ih =>
    unfold genmove_loop at h
    split at h
    · rename_i hi
      split at h
      · cases h
      · rename_i r hr
        have hp := play_random_game_playout env fl mc b st.second_moves color st.i rng r hr
        have hc : r.playout.coord = r.coord := rfl
        have hone : ∀ p ∈ [r.playout], ∃ (moves : ledger) (i : Int) (r0 : R)
            (r : play_return β R),
            play_random_game env fl mc b moves color i r0 = some r ∧ r.playout = p := by
          intro p hp
          rw [List.mem_singleton.mp hp]
          exact ⟨_, _, _, r, hr, rfl⟩
        split at h
        · rename_i s hs
          refine ⟨[r.playout], by simp, ?_, hone⟩
          simp only [run_playouts, if_pos hi]
          rw [hc, hp.1, ← hp.2, hs]
          exact h
        · rename_i s hs
          refine ⟨[r.playout], by simp, ?_, hone⟩
          simp only [run_playouts, if_pos hi]
          rw [hc, hp.1, ← hp.2, hs]
          exact h
        · rename_i s hs
          obtain ⟨ps, hlen, hrun, hprov⟩ := ih _ _ h
          refine ⟨r.playout :: ps, by simpa using hlen, ?_, ?_⟩
          · simp only [run_playouts, if_pos hi]
            rw [hc, hp.1, ← hp.2, hs]
            exact hrun
          · intro p hp
            rcases List.mem_cons.mp hp with rfl | hp
            · exact ⟨_, _, _, r, hr, rfl⟩
            · exact hprov p hp
    · rename_i hi
      refine ⟨[], Nat.zero_le _, ?_, ?_⟩
      · simpa [run_playouts, hi] using h
      · intro p hp; cases hp

/-! ## A position without legal moves -/

/-- When `board_play_random` yields pass on the copy of the position, the call
of `play_random_game` returns `-1`. -/
theorem play_random_game_exhausted {β R F : Type} [LinearOrder F] (env : rules β R F)
    (fl : float_ops F) (mc : montecarlo F) (b : board β) (moves : ledger) (m_color : stone)
    (i : Int) (rng : R) (h : (env.board_play_random rng b m_color).2.2 = env.pass) :
    ∃ r, play_random_game env fl mc b moves m_color i rng = some r ∧ r.result = -1 ∧
      r.moves = moves := by
  unfold play_random_game
  simp only
  rw [if_pos (Or.inl h)]
  exact ⟨_, rfl, rfl, rfl⟩

/-- C3: when the position has no legal move for the deciding colour, that is
when `board_play_random` yields pass on a copy of the position whatever the
state of the random generator, `montecasino_genmove` returns pass with the
ratio `0.5`, for every playout budget `games` (zero and negative budgets
included) and every resignation threshold. -/
theorem no_legal_move_pass {β R F : Type} [LinearOrder F] (env : rules β R F)
    (fl : float_ops F) (mc : montecarlo F) (b : board β) (color : stone) (rng : R)
    (hno : ∀ r : R, (env.board_play_random r b color).2.2 = env.pass) :
    ∃ res, montecasino_genmove env fl mc b color rng = some res ∧
      res.top_coord = env.pass ∧ res.top_ratio = fl.half := by
  unfold montecasino_genmove
  by_cases hg : (0 : Int) < mc.games
  · obtain ⟨fuel, hfuel⟩ : ∃ fuel, (3 * mc.games + 2).toNat = fuel + 1 :=
      ⟨(3 * mc.games + 2).toNat - 1, by omega⟩
    obtain ⟨r, hr, hres, _⟩ := play_random_game_exhausted env fl mc b
      genmove_init.second_moves color genmove_init.i rng (hno rng)
    rw [hfuel]
    unfold genmove_loop
    rw [if_pos (by simpa [genmove_init] using hg), hr]
    simp only [genmove_body, hres, if_true, Option.map_some']
    exact ⟨_, rfl, rfl, rfl⟩
  · have hdone : ∀ fuel, genmove_loop env fl mc b color fuel genmove_init rng
        = some (loop_exit.done genmove_init) := by
      intro fuel
      cases fuel <;> simp [genmove_loop, genmove_init, hg]
    rw [hdone]
    exact ⟨_, rfl, rfl, rfl⟩

/-- C3, at the rules engine `full_rules` with a budget of four playouts. -/
theorem no_legal_move_pass_witness :
    ∃ res, montecasino_genmove full_rules rat_ops demo_mc demo_board stone.S_BLACK []
        = some res ∧ res.top_coord = full_rules.pass ∧ res.top_ratio = rat_ops.half :=
  no_legal_move_pass full_rules rat_ops demo_mc demo_board stone.S_BLACK [] (fun _ => rfl)

/-! ## The ranking loop -/

/-- What the ranking loop computes on a list of points: the running ratio never
falls, it ends above the ratio of every point with games, and either nothing
was selected, or the selected point is a point of the list with games, carries
the final ratio, and every point before it has a smaller ratio. -/
theorem rank_fold_spec {β F : Type} [LinearOrder F] (fl : float_ops F) (b : board β)
    (moves second_moves : ledger) (l : List coord_t) (top : coord_t × F) :
    top.2 ≤ (l.foldl (rank_step fl b moves second_moves) top).2 ∧
    (∀ d ∈ l, (moves d.pos).games ≠ 0 →
      counter_ratio fl b second_moves d ≤ (l.foldl (rank_step fl b moves second_moves) top).2) ∧
    ((l.foldl (rank_step fl b moves second_moves) top = top ∧
        ∀ d ∈ l, (moves d.pos).games ≠ 0 → counter_ratio fl b second_moves d ≤ top.2) ∨
      (top.2 < (l.foldl (rank_step fl b moves second_moves) top).2 ∧
        ∃ l1 l2, l = l1 ++ (l.foldl (rank_step fl b moves second_moves) top).1 :: l2 ∧
          (moves (l.foldl (rank_step fl b moves second_moves) top).1.pos).games ≠ 0 ∧
          (l.foldl (rank_step fl b moves second_moves) top).2
            = counter_ratio fl b second_moves (l.foldl (rank_step fl b moves second_moves) top).1 ∧
          ∀ d ∈ l1, (moves d.pos).games ≠ 0 →
            counter_ratio fl b second_moves d
              < (l.foldl (rank_step fl b moves second_moves) top).2)) := by
  induction l generalizing top with
  | nil =>
    refine ⟨le_refl _, ?_, Or.inl ⟨rfl, ?_⟩⟩ <;> intro d hd <;> cases hd
  | cons c l ih =>
    simp only [List.foldl_cons]
    obtain ⟨ha, hb, hc⟩ := ih (rank_step fl b moves second_moves top c)
    by_cases hg : (moves c.pos).games = 0
    · have hstep : rank_step fl b moves second_moves top c = top := by
        unfold rank_step; rw [if_pos hg]
      rw [hstep] at ha hb hc ⊢
      refine ⟨ha, ?_, ?_⟩
      · intro d hd hgd
        rcases List.mem_cons.mp hd with rfl | hd
        · exact absurd hg hgd
        · exact hb d hd hgd
      · rcases hc with ⟨h1, h2⟩ | ⟨h1, l1, l2, h2, h3, h4, h5⟩
        · refine Or.inl ⟨h1, ?_⟩
          intro d hd hgd
          rcases List.mem_cons.mp hd with rfl | hd
          · exact absurd hg hgd
          · exact h2 d hd hgd
        · refine Or.inr ⟨h1, c :: l1, l2, by rw [List.cons_append, ← h2], h3, h4, ?_⟩
          intro d hd hgd
          rcases List.mem_cons.mp hd with rfl | hd
          · exact absurd hg hgd
          · exact h5 d hd hgd
    · by_cases hlt : top.2 < counter_ratio fl b second_moves c
      · have hstep : rank_step fl b moves second_moves top c
            = (c, counter_ratio fl b second_moves c) := by
          unfold rank_step; rw [if_neg hg]; simp only; rw [if_pos hlt]
        rw [hstep] at ha hb hc ⊢
        simp only at ha hc
        refine ⟨le_trans (le_of_lt hlt) ha, ?_, Or.inr ⟨lt_of_lt_of_le hlt ha, ?_⟩⟩
        · intro d hd hgd
          rcases List.mem_cons.mp hd with rfl | hd
          · exact ha
          · exact hb d hd hgd
        · rcases hc with ⟨h1, _⟩ | ⟨h1, l1, l2, h2, h3, h4, h5⟩
          · rw [h1]
            refine ⟨[], l, rfl, hg, rfl, ?_⟩
            intro d hd; cases hd
          · refine ⟨c :: l1, l2, by rw [List.cons_append, ← h2], h3, h4, ?_⟩
            intro d hd hgd
            rcases List.mem_cons.mp hd with rfl | hd
            · exact h1
            · exact h5 d hd hgd
      · have hstep : rank_step fl b moves second_moves top c = top := by
          unfold rank_step; rw [if_neg hg]; simp only; rw [if_neg hlt]
        rw [hstep] at ha hb hc ⊢
        have hle := not_lt.mp hlt
        refine ⟨ha, ?_, ?_⟩
        · intro d hd hgd
          rcases List.mem_cons.mp hd with rfl | hd
          · exact le_trans hle ha
          · exact hb d hd hgd
        · rcases hc with ⟨h1, h2⟩ | ⟨h1, l1, l2, h2, h3, h4, h5⟩
          · refine Or.inl ⟨h1, ?_⟩
            intro d hd hgd
            rcases List.mem_cons.mp hd with rfl | hd
            · exact hle
            · exact h2 d hd hgd
          · refine Or.inr ⟨h1, c :: l1, l2, by rw [List.cons_append, ← h2], h3, h4, ?_⟩
            intro d hd hgd
            rcases List.mem_cons.mp hd with rfl | hd
            · exact lt_of_le_of_lt hle h1
            · exact h5 d hd hgd

/-- The board scan visits the points by increasing `pos`. -/
theorem foreach_point_sorted {β : Type} (b : board β) :
    (foreach_point b).Pairwise (fun c d => c.pos < d.pos) := by
  unfold foreach_point
  rw [List.pairwise_map]
  exact (List.pairwise_lt_range _).imp (fun h => by simpa using h)

/-- In the board scan, the points before a point are those of smaller `pos`. -/
theorem foreach_point_before {β : Type} (b : board β) (l1 l2 : List coord_t) (c d : coord_t)
    (h : foreach_point b = l1 ++ c :: l2) (hd : d ∈ foreach_point b) (hlt : d.pos < c.pos) :
    d ∈ l1 := by
  have hs := foreach_point_sorted b
  rw [h] at hs hd
  rcases List.mem_append.mp hd with hd | hd
  · exact hd
  · exfalso
    have hs2 := (List.pairwise_append.mp hs).2.1
    rcases List.mem_cons.mp hd with rfl | hd
    · exact lt_irrefl _ hlt
    · have := (List.pairwise_cons.mp hs2).1 d hd
      omega

/-! ## The first-level ledger along a run -/

/-- A round of the `for` loop writes to the first-level entry of the candidate
coordinate only, and only for a scored playout. -/
theorem genmove_body_moves_other {β R F : Type} (env : rules β R F) (mc : montecarlo F)
    (b : board β) (st : loop_state) (result : Int) (coord : coord_t) (k : Int)
    (h : coord.pos ≠ k ∨ result = -1 ∨ result = -2 ∨ result = -3) :
    (genmove_body env mc b st result coord).state.moves k = st.moves k := by
  unfold genmove_body
  split
  · rfl
  · split
    · split <;> rfl
    · split
      · rfl
      · have hk : coord.pos ≠ k := by omega
        have hk2 : ¬ k = coord.pos := fun e => hk e.symm
        simp only
        split
        · simp [loop_step.state, games_incr, hk2]
        · split <;> simp [loop_step.state, games_incr, wins_add, hk2]

/-- The first-level entry of a coordinate that no scored playout starts with is
the same at the end of the loop as at its start. -/
theorem run_playouts_untouched {β R F : Type} (env : rules β R F) (mc : montecarlo F)
    (b : board β) (c : coord_t) (ps : List playout) (st : loop_state) (ex : loop_exit)
    (hps : ∀ p ∈ ps, p.coord = c → p.outcome ≠ outcome.Win ∧ p.outcome ≠ outcome.Loss)
    (hrun : run_playouts env mc b st ps = some ex) :
    ex.state.moves c.pos = st.moves c.pos := by
  induction ps generalizing st with
  | nil =>
    unfold run_playouts at hrun
    split at hrun
    · cases hrun
    · cases hrun; rfl
  | cons p ps ih =>
    have hbody := genmove_body_moves_other env mc b
      { st with second_moves := p.record b.size2 st.second_moves } p.outcome.result p.coord c.pos
      (by
        by_cases hpc : p.coord = c
        · right
          have := hps p (List.mem_cons_self _ _) hpc
          cases hpo : p.outcome <;> simp_all [outcome.result]
        · left
          intro e
          apply hpc
          cases hp : p.coord; cases hc : c
          rw [hp, hc] at e
          simp only at e
          rw [e])
    unfold run_playouts at hrun
    split at hrun
    · split at hrun
      · rename_i s hs
        cases hrun
        rw [hs] at hbody; exact hbody
      · rename_i s hs
        cases hrun
        rw [hs] at hbody; exact hbody
      · rename_i s hs
        rw [hs] at hbody
        have := ih { s with i := s.i + 1 } (fun q hq => hps q (List.mem_cons_of_mem _ hq)) hrun
        rw [this]; exact hbody
    · cases hrun; rfl

/-- The coordinate returned is pass, resign, or a point of the board with games
in the first-level ledger. -/
theorem genmove_finish_coord {β R F : Type} [LinearOrder F] (env : rules β R F)
    (fl : float_ops F) (mc : montecarlo F) (b : board β) (ex : loop_exit) :
    (genmove_finish env fl mc b ex).top_coord = env.pass ∨
      (genmove_finish env fl mc b ex).top_coord = env.resign ∨
      ((genmove_finish env fl mc b ex).top_coord ∈ foreach_point b ∧
        (ex.state.moves (genmove_finish env fl mc b ex).top_coord.pos).games ≠ 0) := by
  cases ex with
  | pass_wins st => exact Or.inl rfl
  | done st =>
    by_cases hg : st.good_games = 0
    · left
      simp [genmove_finish, hg]
    · right
      have hfin : (genmove_finish env fl mc b (loop_exit.done st)).top_coord
          = (genmove_rank env fl mc b st.moves st.second_moves).1 := by
        simp [genmove_finish, hg]
      have hmem : ∀ (x : coord_t) (l1 l2 : List coord_t),
          foreach_point b = l1 ++ x :: l2 → x ∈ foreach_point b := by
        intro x l1 l2 e
        rw [e]
        simp
      rw [hfin]
      simp only [loop_exit.state]
      unfold genmove_rank
      rcases (rank_fold_spec fl b st.moves st.second_moves (foreach_point b)
        (env.resign, mc.resign_ratio)).2.2 with ⟨h, _⟩ | ⟨_, l1, l2, h1, h2, _⟩
      · left
        rw [h]
      · right
        exact ⟨hmem _ l1 l2 h1, h2⟩

/-! ## Multi-stone suicide -/

/-- A call of `play_random_game` writes the coordinate drawn by
`board_play_random` to `m->coord`, and returns `-1` or `-3` when no group is
left at that coordinate. -/
theorem play_random_game_suicide {β R F : Type} [LinearOrder F] (env : rules β R F)
    (fl : float_ops F) (mc : montecarlo F) (b : board β) (moves : ledger) (m_color : stone)
    (i : Int) (rng : R) (r : play_return β R)
    (h : play_random_game env fl mc b moves m_color i rng = some r) :
    r.coord = (env.board_play_random rng b m_color).2.2 ∧
      (env.group_at (env.board_play_random rng b m_color).2.1
          (env.board_play_random rng b m_color).2.2 = false →
        r.result = -1 ∨ r.result = -3) := by
  unfold play_random_game at h
  simp only at h
  split at h
  · cases h
    exact ⟨rfl, fun _ => Or.inl rfl⟩
  · split at h
    · cases h
      exact ⟨rfl, fun _ => Or.inr rfl⟩
    · rename_i hg
      split at h
      · cases h
        exact ⟨rfl, fun e => absurd e hg⟩
      · split at h
        · cases h
        · cases h
          exact ⟨rfl, fun e => absurd e hg⟩

/-- C4: let `c` be a board coordinate (neither pass nor resign) such that,
whenever `board_play_random` plays `c` on a copy of the position, no group is
left at `c`.  Then `montecasino_genmove` does not return `c`, whatever the
random generator and the other playouts do. -/
theorem suicide_never_returned {β R F : Type} [LinearOrder F] (env : rules β R F)
    (fl : float_ops F) (mc : montecarlo F) (b : board β) (color : stone) (rng : R)
    (c : coord_t) (hpass : c ≠ env.pass) (hresign : c ≠ env.resign)
    (hsui : ∀ r : R, (env.board_play_random r b color).2.2 = c →
      env.group_at (env.board_play_random r b color).2.1 c = false) :
    (montecasino_genmove env fl mc b color rng).map (fun res => res.top_coord) ≠ some c := by
  unfold montecasino_genmove
  cases hloop : genmove_loop env fl mc b color (3 * mc.games + 2).toNat genmove_init rng with
  | none => simp
  | some ex =>
    obtain ⟨ps, _, hrun, hprov⟩ := genmove_loop_run env fl mc b color _ _ _ ex hloop
    have hps : ∀ p ∈ ps, p.coord = c → p.outcome ≠ outcome.Win ∧ p.outcome ≠ outcome.Loss := by
      intro p hp hpc
      obtain ⟨moves, i, r0, r, hr, rfl⟩ := hprov p hp
      obtain ⟨hcoord, hres⟩ := play_random_game_suicide env fl mc b moves color i r0 r hr
      have hrc : r.coord = c := hpc
      rw [hrc] at hcoord
      have hg := hsui r0 hcoord.symm
      rw [← hcoord] at hres
      rcases hres hg with h | h <;>
        simp [play_return.playout, outcome_of_result, h]
    have hzero := run_playouts_untouched env mc b c ps genmove_init ex hps hrun
    simp only [Option.map_some', ne_eq, Option.some.injEq]
    intro htop
    rcases genmove_finish_coord env fl mc b ex with h | h | ⟨_, h⟩
    · exact hpass (htop ▸ h)
    · exact hresign (htop ▸ h)
    · rw [htop, hzero] at h
      exact h rfl

/-- C4, at the rules engine `demo_rules`, whose point `3` is a suicide, with
the random generator handing out the points `3, 0, 3, 1`. -/
theorem suicide_never_returned_witness :
    (montecasino_genmove demo_rules rat_ops demo_mc demo_board stone.S_WHITE
        [⟨3⟩, ⟨0⟩, ⟨3⟩, ⟨1⟩]).map (fun res => res.top_coord) ≠ some ⟨3⟩ :=
  suicide_never_returned demo_rules rat_ops demo_mc demo_board stone.S_WHITE
    [⟨3⟩, ⟨0⟩, ⟨3⟩, ⟨1⟩] ⟨3⟩ (by decide) (by decide)
    (fun r h => by
      show decide ((⟨3⟩ : coord_t).pos ≠ 3) = false
      decide)

/-! ## The decision after a run -/

/-- The ledger invariant holds when the `for` loop is left. -/
theorem run_playouts_ok {β R F : Type} (env : rules β R F) (mc : montecarlo F) (b : board β)
    (ps : List playout) (st : loop_state) (ex : loop_exit)
    (hm : ledger_ok st.moves) (hs : ledger_ok st.second_moves)
    (hrun : run_playouts env mc b st ps = some ex) :
    ledger_ok ex.state.moves ∧ ledger_ok ex.state.second_moves := by
  induction ps generalizing st with
  | nil =>
    unfold run_playouts at hrun
    split at hrun
    · cases hrun
    · cases hrun; exact ⟨hm, hs⟩
  | cons p ps ih =>
    have hrec := ledger_ok_record p b.size2 st.second_moves hs
    have hbody := genmove_body_ok env mc b
      { st with second_moves := p.record b.size2 st.second_moves } p.outcome.result p.coord
      (outcome_result_cases p.outcome) hm
    unfold run_playouts at hrun
    split at hrun
    · split at hrun
      · rename_i s hs2
        cases hrun
        rw [hs2] at hbody
        simp only [loop_step.state] at hbody
        simp only [loop_exit.state]
        exact ⟨hbody.1, by rw [hbody.2]; exact hrec⟩
      · rename_i s hs2
        cases hrun
        rw [hs2] at hbody
        simp only [loop_step.state] at hbody
        simp only [loop_exit.state]
        exact ⟨hbody.1, by rw [hbody.2]; exact hrec⟩
      · rename_i s hs2
        rw [hs2] at hbody
        simp only [loop_step.state] at hbody
        exact ih { s with i := s.i + 1 } hbody.1 (by rw [hbody.2]; exact hrec) hrun
    · cases hrun; exact ⟨hm, hs⟩

/-- C5: when the playout loop, run from the zeroed ledgers on a sequence of
playouts, ends by its condition or by the early stop with at least one usable
result, and the coordinate `c` returned is not resign, then `c` is a point of
the board with `games ≥ 1` in the first-level ledger, the value
`1 - best_move_at_board(second_moves[c])` is at least the value
`1 - best_move_at_board(second_moves[d])` of every point `d` of the board with
first-level `games ≥ 1`, and every such `d` with the same value comes after `c`
in the board scan (`c.pos ≤ d.pos`). -/
theorem ranking_argmax {β R F : Type} [LinearOrder F] (env : rules β R F) (fl : float_ops F)
    (mc : montecarlo F) (b : board β) (ps : List playout) (st : loop_state) (c : coord_t)
    (hrun : run_playouts env mc b genmove_init ps = some (loop_exit.done st))
    (hgood : st.good_games ≠ 0)
    (hc : (genmove_finish env fl mc b (loop_exit.done st)).top_coord = c)
    (hboard : c ≠ env.resign) :
    (genmove_playouts env fl mc b ps).map (fun res => res.top_coord) = some c ∧
    (0 ≤ c.pos ∧ c.pos < b.size2) ∧ 1 ≤ (st.moves c.pos).games ∧
    ∀ d : coord_t, 0 ≤ d.pos → d.pos < b.size2 → 1 ≤ (st.moves d.pos).games →
      fl.one_minus (best_move_at_board fl b (ledger_row st.second_moves b.size2 d))
        ≤ fl.one_minus (best_move_at_board fl b (ledger_row st.second_moves b.size2 c)) ∧
      (fl.one_minus (best_move_at_board fl b (ledger_row st.second_moves b.size2 d))
        = fl.one_minus (best_move_at_board fl b (ledger_row st.second_moves b.size2 c)) →
        c.pos ≤ d.pos) := by
  have hok := (run_playouts_ok env mc b ps genmove_init _ ledger_ok_zero ledger_ok_zero hrun).1
  simp only [loop_exit.state] at hok
  have hfin : genmove_finish env fl mc b (loop_exit.done st)
      = ⟨(genmove_rank env fl mc b st.moves st.second_moves).1,
          (genmove_rank env fl mc b st.moves st.second_moves).2, st⟩ := by
    simp [genmove_finish, hgood]
  rw [hfin] at hc
  simp only at hc
  refine ⟨by simp [genmove_playouts, hrun, hfin, hc], ?_⟩
  obtain ⟨_, hb, hcase⟩ := rank_fold_spec fl b st.moves st.second_moves (foreach_point b)
    (env.resign, mc.resign_ratio)
  unfold genmove_rank at hc
  rcases hcase with ⟨h, _⟩ | ⟨_, l1, l2, h1, h2, h3, h4⟩
  · rw [h] at hc
    exact absurd hc.symm hboard
  · rw [hc] at h1 h2 h3
    have hmem : c ∈ foreach_point b := by
      rw [h1]; simp
    have hcg : 1 ≤ (st.moves c.pos).games := by
      have := (hok c.pos)
      omega
    refine ⟨(mem_foreach_point b c).mp hmem, hcg, ?_⟩
    intro d hd0 hd1 hdg
    have hdmem : d ∈ foreach_point b := (mem_foreach_point b d).mpr ⟨hd0, hd1⟩
    have hdne : (st.moves d.pos).games ≠ 0 := by omega
    have hle := hb d hdmem hdne
    rw [h3] at hle h4
    refine ⟨hle, ?_⟩
    intro heq
    by_contra hlt
    have hbefore := foreach_point_before b l1 l2 c d h1 hdmem (by omega)
    have := h4 d hbefore hdne
    unfold counter_ratio at this
    rw [heq] at this
    exact lt_irrefl _ this

/-- C5, at the four playouts `demo_playouts`: point `0` is returned. -/
theorem ranking_argmax_witness :
    (genmove_playouts demo_rules rat_ops demo_mc demo_board demo_playouts).map
        (fun res => res.top_coord) = some ⟨0⟩ ∧
    (0 ≤ (⟨0⟩ : coord_t).pos ∧ (⟨0⟩ : coord_t).pos < demo_board.size2) ∧
    1 ≤ (demo_final.moves (⟨0⟩ : coord_t).pos).games ∧
    ∀ d : coord_t, 0 ≤ d.pos → d.pos < demo_board.size2 → 1 ≤ (demo_final.moves d.pos).games →
      rat_ops.one_minus
          (best_move_at_board rat_ops demo_board
            (ledger_row demo_final.second_moves demo_board.size2 d))
        ≤ rat_ops.one_minus
          (best_move_at_board rat_ops demo_board
            (ledger_row demo_final.second_moves demo_board.size2 ⟨0⟩)) ∧
      (rat_ops.one_minus
          (best_move_at_board rat_ops demo_board
            (ledger_row demo_final.second_moves demo_board.size2 d))
        = rat_ops.one_minus
          (best_move_at_board rat_ops demo_board
            (ledger_row demo_final.second_moves demo_board.size2 ⟨0⟩)) →
        (⟨0⟩ : coord_t).pos ≤ d.pos) :=
  ranking_argmax demo_rules rat_ops demo_mc demo_board demo_playouts demo_final ⟨0⟩
    rfl (by decide) (by decide!) (by decide)

/-- C6: when the playout loop, run from the zeroed ledgers on a sequence of
playouts, ends by its condition or by the early stop with at least one usable
result, and resign is not a point of the board, then `montecasino_genmove`
returns resign if and only if no point of the board with first-level
`games ≥ 1` has a value `1 - best_move_at_board(second_moves[d])` strictly above
`mc->resign_ratio`; with resign the ratio is `mc->resign_ratio`, and with any
other coordinate the ratio is strictly above `mc->resign_ratio`. -/
theorem resign_iff_no_hope {β R F : Type} [LinearOrder F] (env : rules β R F)
    (fl : float_ops F) (mc : montecarlo F) (b : board β) (ps : List playout) (st : loop_state)
    (hrun : run_playouts env mc b genmove_init ps = some (loop_exit.done st))
    (hgood : st.good_games ≠ 0)
    (hsentinel : ¬ (0 ≤ env.resign.pos ∧ env.resign.pos < b.size2)) :
    genmove_playouts env fl mc b ps = some (genmove_finish env fl mc b (loop_exit.done st)) ∧
    ((genmove_finish env fl mc b (loop_exit.done st)).top_coord = env.resign ↔
      ∀ d : coord_t, 0 ≤ d.pos → d.pos < b.size2 → 1 ≤ (st.moves d.pos).games →
        ¬ mc.resign_ratio
          < fl.one_minus (best_move_at_board fl b (ledger_row st.second_moves b.size2 d))) ∧
    ((genmove_finish env fl mc b (loop_exit.done st)).top_coord = env.resign →
      (genmove_finish env fl mc b (loop_exit.done st)).top_ratio = mc.resign_ratio) ∧
    ((genmove_finish env fl mc b (loop_exit.done st)).top_coord ≠ env.resign →
      mc.resign_ratio < (genmove_finish env fl mc b (loop_exit.done st)).top_ratio) := by
  have hok := (run_playouts_ok env mc b ps genmove_init _ ledger_ok_zero ledger_ok_zero hrun).1
  simp only [loop_exit.state] at hok
  have hfin : genmove_finish env fl mc b (loop_exit.done st)
      = ⟨(genmove_rank env fl mc b st.moves st.second_moves).1,
          (genmove_rank env fl mc b st.moves st.second_moves).2, st⟩ := by
    simp [genmove_finish, hgood]
  refine ⟨by simp [genmove_playouts, hrun], ?_⟩
  rw [hfin]
  simp only
  obtain ⟨_, hb, hcase⟩ := rank_fold_spec fl b st.moves st.second_moves (foreach_point b)
    (env.resign, mc.resign_ratio)
  unfold genmove_rank
  rcases hcase with ⟨h, hall⟩ | ⟨hlt, l1, l2, h1, h2, h3, _⟩
  · rw [h]
    refine ⟨⟨fun _ d hd0 hd1 hdg => ?_, fun _ => rfl⟩, fun _ => rfl, fun hne => absurd rfl hne⟩
    have hdmem : d ∈ foreach_point b := (mem_foreach_point b d).mpr ⟨hd0, hd1⟩
    exact not_lt.mpr (hall d hdmem (by omega))
  · have hmem : ∀ (x : coord_t), foreach_point b = l1 ++ x :: l2 → x ∈ foreach_point b := by
      intro x e
      rw [e]
      simp
    have hin := (mem_foreach_point b _).mp (hmem _ h1)
    have hne : (List.foldl (rank_step fl b st.moves st.second_moves)
        (env.resign, mc.resign_ratio) (foreach_point b)).1 ≠ env.resign := by
      intro e
      rw [e] at hin
      exact hsentinel hin
    refine ⟨⟨fun e => absurd e hne, fun hall => ?_⟩, fun e => absurd e hne, fun _ => hlt⟩
    exfalso
    have hg : 1 ≤ (st.moves (List.foldl (rank_step fl b st.moves st.second_moves)
        (env.resign, mc.resign_ratio) (foreach_point b)).1.pos).games := by
      have := hok (List.foldl (rank_step fl b st.moves st.second_moves)
        (env.resign, mc.resign_ratio) (foreach_point b)).1.pos
      omega
    apply hall _ hin.1 hin.2 hg
    have h3b := h3
    unfold counter_ratio at h3b
    rw [← h3b]
    exact hlt

/-- C6, at the four playouts `demo_playouts`: the decision is not resign and
its ratio is above the threshold `1/10`. -/
theorem resign_iff_no_hope_witness :
    (genmove_finish demo_rules rat_ops demo_mc demo_board
        (loop_exit.done demo_final)).top_coord ≠ demo_rules.resign ∧
    demo_mc.resign_ratio < (genmove_finish demo_rules rat_ops demo_mc demo_board
        (loop_exit.done demo_final)).top_ratio :=
  ⟨by decide!,
    (resign_iff_no_hope demo_rules rat_ops demo_mc demo_board demo_playouts demo_final
      rfl (by decide) (by decide)).2.2.2 (by decide!)⟩

/-! ## Termination of the playout loop -/

/-- A C `int` product that is not negative in the integers is at most its
value in the integers. -/
theorem int_wrap_le (x : Int) (h : 0 ≤ x) : int_wrap x ≤ x := by
  unfold int_wrap
  omega

/-- A value in the range of `int` is the value of the C expression. -/
theorem int_wrap_eq (x : Int) (h1 : -2147483648 ≤ x) (h2 : x < 2147483648) :
    int_wrap x = x := by
  unfold int_wrap
  omega

/-- At the start of the loop `3 * games + 2` calls are allowed for. -/
theorem loop_budget_init {F : Type} (mc : montecarlo F) :
    loop_budget mc genmove_init ≤ (3 * mc.games + 2).toNat := by
  unfold loop_budget genmove_init
  simp only
  split
  · have hw := int_wrap_le (2 * mc.games) (by omega)
    omega
  · omega

/-- A round that continues the loop uses up one unit of `loop_budget`. -/
theorem genmove_body_budget {β R F : Type} (env : rules β R F) (mc : montecarlo F)
    (b : board β) (st s : loop_state) (result : Int) (coord : coord_t)
    (hi : st.i < mc.games)
    (h : genmove_body env mc b st result coord = loop_step.continue_loop s) :
    loop_budget mc { s with i := s.i + 1 } + 1 ≤ loop_budget mc st := by
  unfold genmove_body at h
  unfold loop_budget
  rw [if_pos hi]
  split at h
  · cases h
  · split at h
    · split at h
      · cases h
      · cases h
        simp only
        split <;> omega
    · split at h
      · cases h
        simp only
        split <;> omega
      · simp only at h
        split at h
        · cases h
          simp only
          split <;> omega
        · split at h
          · cases h
          · cases h
            simp only
            split <;> omega

/-- The `for` loop ends within `loop_budget` playouts: on a list at least that
long it returns, and it returns the same on the first `n` playouts alone. -/
theorem run_playouts_terminates {β R F : Type} (env : rules β R F) (mc : montecarlo F)
    (b : board β) (n : Nat) (st : loop_state) (ps : List playout)
    (hbudget : loop_budget mc st ≤ n) (hlen : n ≤ ps.length) :
    ∃ ex, run_playouts env mc b st (ps.take n) = some ex ∧
      run_playouts env mc b st ps = some ex := by
  induction n generalizing st ps with
  | zero =>
    have hi : ¬ st.i < mc.games := by
      unfold loop_budget at hbudget
      split at hbudget
      · omega
      · assumption
    refine ⟨loop_exit.done st, ?_, ?_⟩
    · simp [run_playouts, hi]
    · cases ps <;> simp [run_playouts, hi]
  | succ n ih =>
    cases ps with
    | nil => simp at hlen
    | cons p ps =>
      rw [List.take_succ_cons]
      by_cases hi : st.i < mc.games
      · unfold run_playouts
        rw [if_pos hi, if_pos hi]
        cases hbody : genmove_body env mc b
            { st with second_moves := p.record b.size2 st.second_moves }
            p.outcome.result p.coord with
        | goto_pass_wins s => exact ⟨_, rfl, rfl⟩
        | break_loop s => exact ⟨_, rfl, rfl⟩
        | continue_loop s =>
          have hdec := genmove_body_budget env mc b
            { st with second_moves := p.record b.size2 st.second_moves } s _ _ hi hbody
          have hsame : loop_budget mc
              { st with second_moves := p.record b.size2 st.second_moves }
              = loop_budget mc st := rfl
          exact ih { s with i := s.i + 1 } ps (by omega) (by simpa using hlen)
      · refine ⟨loop_exit.done st, ?_, ?_⟩
        · simp [run_playouts, hi]
        · simp [run_playouts, hi]

/-- A round for a playout that returned `-1`, `-2` or `-3` changes neither
ledger, nor the loss counter, nor the usable-game counter. -/
theorem genmove_body_frame {β R F : Type} (env : rules β R F) (mc : montecarlo F)
    (b : board β) (st : loop_state) (result : Int) (coord : coord_t)
    (h : result = -1 ∨ result = -2 ∨ result = -3) :
    (genmove_body env mc b st result coord).state.moves = st.moves ∧
    (genmove_body env mc b st result coord).state.second_moves = st.second_moves ∧
    (genmove_body env mc b st result coord).state.losses = st.losses ∧
    (genmove_body env mc b st result coord).state.good_games = st.good_games := by
  unfold genmove_body
  split
  · exact ⟨rfl, rfl, rfl, rfl⟩
  · split
    · split <;> exact ⟨rfl, rfl, rfl, rfl⟩
    · split
      · exact ⟨rfl, rfl, rfl, rfl⟩
      · omega

/-- Superko playouts leave the usable-game counter alone. -/
theorem run_playouts_superko_good {β R F : Type} (env : rules β R F) (mc : montecarlo F)
    (b : board β) (ps : List playout) (st : loop_state) (ex : loop_exit)
    (hall : ∀ p ∈ ps, p.outcome = outcome.SuperkoInGame)
    (hrun : run_playouts env mc b st ps = some ex) :
    ex.state.good_games = st.good_games := by
  induction ps generalizing st with
  | nil =>
    unfold run_playouts at hrun
    split at hrun
    · cases hrun
    · cases hrun; rfl
  | cons p ps ih =>
    have hp := hall p (List.mem_cons_self _ _)
    have hframe := (genmove_body_frame env mc b
      { st with second_moves := p.record b.size2 st.second_moves } p.outcome.result p.coord
      (by rw [hp]; exact Or.inr (Or.inl rfl))).2.2.2
    unfold run_playouts at hrun
    split at hrun
    · split at hrun
      · rename_i s hs
        cases hrun
        rw [hs] at hframe
        exact hframe
      · rename_i s hs
        cases hrun
        rw [hs] at hframe
        exact hframe
      · rename_i s hs
        rw [hs] at hframe
        rw [ih _ (fun q hq => hall q (List.mem_cons_of_mem _ hq)) hrun]
        exact hframe
    · cases hrun; rfl

/-- C7: the playout loop of `montecasino_genmove` ends after at most
`3 * games + 2` calls of `play_random_game`, for every budget `games` and every
sequence of playouts: on a sequence at least that long the loop returns, and it
returns the same on the first `3 * games + 2` playouts alone.  When all these
playouts are `SuperkoInGame`, the decision is pass with the ratio `0.5`. -/
theorem playout_loop_terminates {β R F : Type} [LinearOrder F] (env : rules β R F)
    (fl : float_ops F) (mc : montecarlo F) (b : board β) (ps : List playout)
    (hlen : (3 * mc.games + 2).toNat ≤ ps.length) :
    (∃ ex, run_playouts env mc b genmove_init (ps.take (3 * mc.games + 2).toNat) = some ex ∧
      run_playouts env mc b genmove_init ps = some ex) ∧
    ((∀ p ∈ ps, p.outcome = outcome.SuperkoInGame) →
      ∃ res, genmove_playouts env fl mc b ps = some res ∧
        res.top_coord = env.pass ∧ res.top_ratio = fl.half) := by
  have hbudget : loop_budget mc genmove_init ≤ (3 * mc.games + 2).toNat :=
    loop_budget_init mc
  obtain ⟨ex, htake, hrun⟩ := run_playouts_terminates env mc b _ genmove_init ps hbudget hlen
  refine ⟨⟨ex, htake, hrun⟩, ?_⟩
  intro hall
  have hgood := run_playouts_superko_good env mc b ps genmove_init ex hall hrun
  unfold genmove_playouts
  rw [hrun]
  refine ⟨_, rfl, ?_⟩
  cases ex with
  | pass_wins s => exact ⟨rfl, rfl⟩
  | done s =>
    have hz : s.good_games = 0 := hgood
    simp [genmove_finish, hz]

/-- C7, at a budget of four playouts and fourteen superko playouts. -/
theorem playout_loop_terminates_witness :
    ∃ res, genmove_playouts demo_rules rat_ops demo_mc demo_board
        (List.replicate 14 demo_superko) = some res ∧
      res.top_coord = demo_rules.pass ∧ res.top_ratio = rat_ops.half :=
  (playout_loop_terminates demo_rules rat_ops demo_mc demo_board
    (List.replicate 14 demo_superko) (by decide)).2
    (fun p hp => by rw [List.eq_of_mem_replicate hp]; rfl)

/-! ## Superko discards -/

/-- A round for a playout other than a superko does not read the superko
counter. -/
theorem genmove_body_superko {β R F : Type} (env : rules β R F) (mc : montecarlo F)
    (b : board β) (s : loop_state) (k : Int) (result : Int) (coord : coord_t)
    (hres : result ≠ -2) :
    genmove_body env mc b { s with superko := k } result coord
      = (genmove_body env mc b s result coord).with_superko k := by
  unfold genmove_body
  simp only [hres, if_false]
  split_ifs <;> rfl

/-- A round for a playout other than a superko keeps the superko counter. -/
theorem genmove_body_keeps_superko {β R F : Type} (env : rules β R F) (mc : montecarlo F)
    (b : board β) (s : loop_state) (result : Int) (coord : coord_t) (hres : result ≠ -2) :
    (genmove_body env mc b s result coord).state.superko = s.superko := by
  unfold genmove_body
  simp only [hres, if_false]
  split_ifs <;> rfl

/-- One round of the loop on a sequence of playouts. -/
theorem run_playouts_cons {β R F : Type} (env : rules β R F) (mc : montecarlo F)
    (b : board β) (st : loop_state) (p : playout) (ps : List playout) :
    run_playouts env mc b st (p :: ps) =
      if st.i < mc.games then
        match genmove_body env mc b { st with second_moves := p.record b.size2 st.second_moves }
            p.outcome.result p.coord with
        | loop_step.goto_pass_wins s => some (loop_exit.pass_wins s)
        | loop_step.break_loop s => some (loop_exit.done s)
        | loop_step.continue_loop s => run_playouts env mc b { s with i := s.i + 1 } ps
      else some (loop_exit.done st) := by
  rw [run_playouts]

/-- A discarded superko playout: the round only counts it. -/
theorem run_playouts_superko_step {β R F : Type} (env : rules β R F) (mc : montecarlo F)
    (b : board β) (st : loop_state) (p : playout) (ps : List playout)
    (hp : p.outcome = outcome.SuperkoInGame) (hi : st.i < mc.games)
    (hcap : ¬ st.superko > int_wrap (2 * mc.games)) :
    run_playouts env mc b st (p :: ps) =
      run_playouts env mc b { st with i := st.i - 1 + 1, superko := st.superko + 1 } ps := by
  have hrec : p.record b.size2 st.second_moves = st.second_moves := by
    simp [playout.record, hp]
  rw [run_playouts_cons, if_pos hi, hrec]
  simp only [hp, outcome.result, genmove_body]
  simp only [show ¬ ((-2 : Int) = -1) by decide, if_false, if_true, hcap]

/-- The loop on a sequence of playouts and the loop on the sequence without
its superko playouts end alike, as long as the superko cap is not passed. -/
theorem run_playouts_filter {β R F : Type} (env : rules β R F) (mc : montecarlo F)
    (b : board β) (ps : List playout) (s t : loop_state) (hst : same_but_superko s t)
    (hcap : s.superko +
      ((ps.filter (fun p => decide (p.outcome = outcome.SuperkoInGame))).length : Int)
        ≤ int_wrap (2 * mc.games) + 1) :
    same_exit (run_playouts env mc b s ps)
      (run_playouts env mc b t
        (ps.filter (fun p => decide (p.outcome ≠ outcome.SuperkoInGame)))) := by
  induction ps generalizing s t with
  | nil =>
    obtain ⟨h1, h2, h3, h4, h5⟩ := hst
    simp only [List.filter_nil, run_playouts, h4]
    split
    · trivial
    · exact ⟨h1, h2, h3, h4, h5⟩
  | cons p ps ih =>
    by_cases hi : s.i < mc.games
    · have hit : t.i < mc.games := hst.2.2.2.1 ▸ hi
      by_cases hp : p.outcome = outcome.SuperkoInGame
      · have hf1 : (p :: ps).filter (fun p => decide (p.outcome ≠ outcome.SuperkoInGame))
            = ps.filter (fun p => decide (p.outcome ≠ outcome.SuperkoInGame)) := by
          simp [List.filter_cons, hp]
        have hf2 : ((p :: ps).filter
            (fun p => decide (p.outcome = outcome.SuperkoInGame))).length
            = (ps.filter (fun p => decide (p.outcome = outcome.SuperkoInGame))).length + 1 := by
          simp [List.filter_cons, hp]
        rw [hf1]
        rw [hf2] at hcap
        have hnot : ¬ s.superko > int_wrap (2 * mc.games) := by
          push_cast at hcap
          omega
        rw [run_playouts_superko_step env mc b s p ps hp hi hnot]
        refine ih _ t ?_ ?_
        · obtain ⟨h1, h2, h3, h4, h5⟩ := hst
          refine ⟨h1, h2, h3, ?_, h5⟩
          simp only
          omega
        · simp only
          push_cast at hcap ⊢
          omega
      · have hf1 : (p :: ps).filter (fun p => decide (p.outcome ≠ outcome.SuperkoInGame))
            = p :: ps.filter (fun p => decide (p.outcome ≠ outcome.SuperkoInGame)) := by
          simp [List.filter_cons, hp]
        have hf2 : ((p :: ps).filter
            (fun p => decide (p.outcome = outcome.SuperkoInGame))).length
            = (ps.filter (fun p => decide (p.outcome = outcome.SuperkoInGame))).length := by
          simp [List.filter_cons, hp]
        rw [hf1]
        rw [hf2] at hcap
        have hres : p.outcome.result ≠ -2 := by
          cases hpo : p.outcome <;> simp_all [outcome.result]
        have ht : ({ t with second_moves := p.record b.size2 t.second_moves } : loop_state)
            = { ({ s with second_moves := p.record b.size2 s.second_moves } : loop_state)
                with superko := t.superko } := by
          obtain ⟨e1, e2, e3, e4, e5⟩ := hst
          cases s; cases t
          simp only at e1 e2 e3 e4 e5
          simp only [e1, e2, e3, e4, e5]
        have hsup := genmove_body_keeps_superko env mc b
          { s with second_moves := p.record b.size2 s.second_moves }
          p.outcome.result p.coord hres
        rw [run_playouts_cons, run_playouts_cons, if_pos hi, if_pos hit, ht,
          genmove_body_superko env mc b _ _ _ _ hres]
        cases h1 : genmove_body env mc b
            { s with second_moves := p.record b.size2 s.second_moves }
            p.outcome.result p.coord with
        | goto_pass_wins s1 => exact ⟨rfl, rfl, rfl, rfl, rfl⟩
        | break_loop s1 => exact ⟨rfl, rfl, rfl, rfl, rfl⟩
        | continue_loop s1 =>
          rw [h1] at hsup
          simp only [loop_step.state] at hsup
          simp only [loop_step.with_superko]
          refine ih _ _ ⟨rfl, rfl, rfl, rfl, rfl⟩ ?_
          simp only [hsup]
          exact hcap
    · have hit : ¬ t.i < mc.games := hst.2.2.2.1 ▸ hi
      have hl : run_playouts env mc b s (p :: ps) = some (loop_exit.done s) := by
        simp [run_playouts, hi]
      have hr : ∀ l, run_playouts env mc b t l = some (loop_exit.done t) := by
        intro l
        cases l <;> simp [run_playouts, hit]
      rw [hl, hr]
      exact hst

/-- The decision does not read the superko counter. -/
theorem genmove_finish_same {β R F : Type} [LinearOrder F] (env : rules β R F)
    (fl : float_ops F) (mc : montecarlo F) (b : board β) (x y : Option loop_exit)
    (h : same_exit x y) :
    (x.map (genmove_finish env fl mc b)).map genmove_result.view
      = (y.map (genmove_finish env fl mc b)).map genmove_result.view := by
  cases x with
  | none =>
    cases y with
    | none => rfl
    | some ey => exact h.elim
  | some ex =>
    cases y with
    | none => cases ex <;> exact h.elim
    | some ey =>
      cases ex with
      | pass_wins s =>
        cases ey with
        | pass_wins t =>
          obtain ⟨h1, h2, _, _, _⟩ := h
          simp [genmove_finish, genmove_result.view, h1, h2]
        | done t => exact h.elim
      | done s =>
        cases ey with
        | pass_wins t => exact h.elim
        | done t =>
          obtain ⟨h1, h2, _, _, h5⟩ := h
          simp only [Option.map_some', genmove_finish, h5, h1, h2, genmove_result.view]
          split <;> simp only [h1, h2]

/-- Superko discards under the cap, for a budget whose double is an `int`:
for every sequence of playouts with at most `2 * games + 1` playouts of outcome
`SuperkoInGame`, the decision of `montecasino_genmove`, its ratio and the two
ledgers it ends with are those it produces on the sequence with the
`SuperkoInGame` playouts taken out. -/
theorem superko_discards_neutral {β R F : Type} [LinearOrder F] (env : rules β R F)
    (fl : float_ops F) (mc : montecarlo F) (b : board β) (ps : List playout)
    (hg : mc.games < 1073741824)
    (hcap : ((ps.filter (fun p => decide (p.outcome = outcome.SuperkoInGame))).length : Int)
      ≤ 2 * mc.games + 1) :
    (genmove_playouts env fl mc b ps).map genmove_result.view
      = (genmove_playouts env fl mc b
          (ps.filter (fun p => decide (p.outcome ≠ outcome.SuperkoInGame)))).map
          genmove_result.view := by
  unfold genmove_playouts
  by_cases hpos : 0 < mc.games
  · apply genmove_finish_same
    apply run_playouts_filter env mc b ps genmove_init genmove_init ⟨rfl, rfl, rfl, rfl, rfl⟩
    rw [int_wrap_eq (2 * mc.games) (by omega) (by omega)]
    simpa [genmove_init] using hcap
  · have hi : ¬ genmove_init.i < mc.games := hpos
    have hr : ∀ l, run_playouts env mc b genmove_init l = some (loop_exit.done genmove_init) := by
      intro l
      cases l <;> simp [run_playouts, hi]
    rw [hr, hr]

/-- The same, at `demo_playouts_superko`: three superko playouts under a budget
of four. -/
theorem superko_discards_neutral_witness :
    (genmove_playouts demo_rules rat_ops demo_mc demo_board demo_playouts_superko).map
        genmove_result.view
      = (genmove_playouts demo_rules rat_ops demo_mc demo_board demo_playouts).map
          genmove_result.view :=
  superko_discards_neutral demo_rules rat_ops demo_mc demo_board demo_playouts_superko
    (by decide) (by decide)

/-- C8, at a budget of `2^30 + 1` playouts and the sequence of one superko
playout and one won playout for point `2`: the sequence holds one
`SuperkoInGame` result, far below `2 * games + 1`, yet the product
`2 * mc->games` of line 222 wraps to `-2^31 + 2`, the first superko result
passes the cap and the decision is pass with the ratio `1/2`; on the sequence
without the superko playout the decision is point `2`. -/
theorem superko_cap_overflow :
    ((overflow_playouts.filter
        (fun p => decide (p.outcome = outcome.SuperkoInGame))).length : Int)
      ≤ 2 * overflow_mc.games + 1 ∧
    int_wrap (2 * overflow_mc.games) = -2147483646 ∧
    (genmove_playouts demo_rules rat_ops overflow_mc demo_board overflow_playouts).map
        (fun res => (res.top_coord, res.top_ratio)) = some (demo_rules.pass, 1 / 2) ∧
    (genmove_playouts demo_rules rat_ops overflow_mc demo_board
        (overflow_playouts.filter
          (fun p => decide (p.outcome ≠ outcome.SuperkoInGame)))).map
        (fun res => res.top_coord) = some ⟨2⟩ := by
  decide!

/-! ## The ledgers around one call of `play_random_game` -/

/-- The second-level ledger after a call of `play_random_game`, by the value
returned. -/
theorem play_random_game_moves {β R F : Type} [LinearOrder F] (env : rules β R F)
    (fl : float_ops F) (mc : montecarlo F) (b : board β) (moves : ledger) (m_color : stone)
    (i : Int) (rng : R) (r : play_return β R)
    (h : play_random_game env fl mc b moves m_color i rng = some r) :
    (r.result = -1 ∨ r.result = -2 ∨ r.result = -3 → r.moves = moves) ∧
    (r.result = 1 →
      r.moves = games_incr moves (r.coord.pos * b.size2 + r.next_move.pos)) ∧
    (r.result = 0 →
      r.moves = wins_add (games_incr moves (r.coord.pos * b.size2 + r.next_move.pos))
        (r.coord.pos * b.size2 + r.next_move.pos) 1) := by
  obtain ⟨_, hm⟩ := play_random_game_playout env fl mc b moves m_color i rng r h
  refine ⟨fun hres => ?_, fun h1 => ?_, fun h0 => ?_⟩
  · rw [hm]
    rcases hres with e | e | e <;>
      simp [play_return.playout, playout.record, outcome_of_result, e]
  · rw [hm]
    simp [play_return.playout, playout.record, outcome_of_result, h1]
  · rw [hm]
    simp [play_return.playout, playout.record, outcome_of_result, h0]

/-- C9: a call of `play_random_game` that returns `-1` (Exhausted), `-2`
(SuperkoInGame) or `-3` (MultiStoneSuicide) leaves every entry of the
second-level ledger as it was, and the round of `montecasino_genmove` that
receives this value leaves the first-level ledger, the loss counter and the
usable-game counter as they were. -/
theorem unscored_playout_frame {β R F : Type} [LinearOrder F] (env : rules β R F)
    (fl : float_ops F) (mc : montecarlo F) (b : board β) (color : stone) (st : loop_state)
    (rng : R) (r : play_return β R)
    (h : play_random_game env fl mc b st.second_moves color st.i rng = some r)
    (hres : r.result = -1 ∨ r.result = -2 ∨ r.result = -3) :
    (∀ k : Int, r.moves k = st.second_moves k) ∧
    (∀ k : Int, (genmove_body env mc b { st with second_moves := r.moves }
        r.result r.coord).state.moves k = st.moves k) ∧
    (genmove_body env mc b { st with second_moves := r.moves }
        r.result r.coord).state.losses = st.losses ∧
    (genmove_body env mc b { st with second_moves := r.moves }
        r.result r.coord).state.good_games = st.good_games := by
  have hm := (play_random_game_moves env fl mc b st.second_moves color st.i rng r h).1 hres
  have hf := genmove_body_frame env mc b { st with second_moves := r.moves } r.result r.coord hres
  exact ⟨fun k => by rw [hm], fun k => by rw [hf.1], hf.2.2.1, hf.2.2.2⟩

/-- C9, at the call of `play_random_game` that draws the suicide point `3`. -/
theorem unscored_playout_frame_witness :
    (∀ k : Int, demo_suicide_return.moves k = genmove_init.second_moves k) ∧
    (∀ k : Int, (genmove_body demo_rules demo_mc demo_board
        { genmove_init with second_moves := demo_suicide_return.moves }
        demo_suicide_return.result demo_suicide_return.coord).state.moves k
          = genmove_init.moves k) ∧
    (genmove_body demo_rules demo_mc demo_board
        { genmove_init with second_moves := demo_suicide_return.moves }
        demo_suicide_return.result demo_suicide_return.coord).state.losses
          = genmove_init.losses ∧
    (genmove_body demo_rules demo_mc demo_board
        { genmove_init with second_moves := demo_suicide_return.moves }
        demo_suicide_return.result demo_suicide_return.coord).state.good_games
          = genmove_init.good_games :=
  unscored_playout_frame demo_rules rat_ops demo_mc demo_board stone.S_WHITE genmove_init
    [⟨3⟩, ⟨0⟩] demo_suicide_return rfl (Or.inr (Or.inr rfl))

/-- C10: when `play_random_game` returns `1` (Win) or `0` (Loss), with `c` the
candidate coordinate written to `m->coord` and `n` the coordinate held by
`next_move`, the entry `n.pos` of the row `second_moves[c.pos]` (the entry
`c.pos * size2 + n.pos` of the flat array) has one game more, has one win more
when the value returned is `0` and the same wins when it is `1`, and every
other entry of the flat array is unchanged. -/
theorem scored_playout_update {β R F : Type} [LinearOrder F] (env : rules β R F)
    (fl : float_ops F) (mc : montecarlo F) (b : board β) (moves : ledger) (m_color : stone)
    (i : Int) (rng : R) (r : play_return β R)
    (h : play_random_game env fl mc b moves m_color i rng = some r)
    (hres : r.result = 1 ∨ r.result = 0) :
    (ledger_row r.moves b.size2 r.coord r.next_move.pos).games
      = (ledger_row moves b.size2 r.coord r.next_move.pos).games + 1 ∧
    (r.result = 0 → (ledger_row r.moves b.size2 r.coord r.next_move.pos).wins
      = (ledger_row moves b.size2 r.coord r.next_move.pos).wins + 1) ∧
    (r.result = 1 → (ledger_row r.moves b.size2 r.coord r.next_move.pos).wins
      = (ledger_row moves b.size2 r.coord r.next_move.pos).wins) ∧
    (∀ k : Int, k ≠ r.coord.pos * b.size2 + r.next_move.pos → r.moves k = moves k) := by
  obtain ⟨_, hwin, hloss⟩ := play_random_game_moves env fl mc b moves m_color i rng r h
  unfold ledger_row
  rcases hres with h1 | h0
  · have hm := hwin h1
    rw [hm]
    refine ⟨by simp [games_incr], fun e => ?_, fun _ => by simp [games_incr], fun k hk => ?_⟩
    · rw [h1] at e
      exact absurd e (by decide)
    · simp [games_incr, hk]
  · have hm := hloss h0
    rw [hm]
    refine ⟨by simp [games_incr, wins_add], fun _ => by simp [games_incr, wins_add],
      fun e => ?_, fun k hk => ?_⟩
    · rw [h0] at e
      exact absurd e (by decide)
    · simp [games_incr, wins_add, hk]

/-- C10, at a call of `play_random_game` lost by white: candidate `2`,
next move `1`. -/
theorem scored_playout_update_witness :
    (demo_scored_return.result = 0 ∧ demo_scored_return.coord = ⟨2⟩ ∧
      demo_scored_return.next_move = ⟨1⟩) ∧
    (ledger_row demo_scored_return.moves demo_board.size2 demo_scored_return.coord
        demo_scored_return.next_move.pos).games
      = (ledger_row ledger_zero demo_board.size2 demo_scored_return.coord
        demo_scored_return.next_move.pos).games + 1 :=
  ⟨by decide!,
    (scored_playout_update demo_rules rat_ops { demo_mc with debug_level := 3 } demo_board
      ledger_zero stone.S_WHITE 0 [⟨2⟩, ⟨1⟩, ⟨-1⟩, ⟨-1⟩] demo_scored_return
      (by with_unfolding_all rfl) (Or.inr (by decide!))).1⟩

/-! ## When `montecasino_genmove` returns -/

/-- A call of `play_random_game` returns unless line 152 divides by zero. -/
theorem play_random_game_returns {β R F : Type} [LinearOrder F] (env : rules β R F)
    (fl : float_ops F) (mc : montecarlo F) (b : board β) (moves : ledger) (m_color : stone)
    (i : Int) (rng : R) (hdiv : mc.games.tdiv 2 ≠ 0) :
    ∃ r, play_random_game env fl mc b moves m_color i rng = some r := by
  unfold play_random_game
  simp only
  split
  · exact ⟨_, rfl⟩
  · split
    · exact ⟨_, rfl⟩
    · split
      · exact ⟨_, rfl⟩
      · exact ⟨_, rfl⟩

/-- With `loop_budget` calls allowed for, the `for` loop over calls of
`play_random_game` returns. -/
theorem genmove_loop_returns {β R F : Type} [LinearOrder F] (env : rules β R F)
    (fl : float_ops F) (mc : montecarlo F) (b : board β) (color : stone)
    (hdiv : mc.games.tdiv 2 ≠ 0) (n : Nat) (st : loop_state) (rng : R)
    (hbudget : loop_budget mc st ≤ n) :
    ∃ ex, genmove_loop env fl mc b color n st rng = some ex := by
  induction n generalizing st rng with
  | zero =>
    have hi : ¬ st.i < mc.games := by
      unfold loop_budget at hbudget
      split at hbudget
      · omega
      · assumption
    exact ⟨loop_exit.done st, by simp [genmove_loop, hi]⟩
  | succ n ih =>
    by_cases hi : st.i < mc.games
    · obtain ⟨r, hr⟩ := play_random_game_returns env fl mc b st.second_moves color st.i rng hdiv
      unfold genmove_loop
      rw [if_pos hi, hr]
      simp only
      cases hbody : genmove_body env mc b { st with second_moves := r.moves }
          r.result r.coord with
      | goto_pass_wins s => exact ⟨_, rfl⟩
      | break_loop s => exact ⟨_, rfl⟩
      | continue_loop s =>
        have hdec := genmove_body_budget env mc b { st with second_moves := r.moves } s _ _
          hi hbody
        have hsame : loop_budget mc { st with second_moves := r.moves }
            = loop_budget mc st := rfl
        exact ih { s with i := s.i + 1 } r.rng (by omega)
    · exact ⟨loop_exit.done st, by simp [genmove_loop, hi]⟩

/-- The function `montecasino_genmove` returns a decision unless the budget
`games` makes line 152 divide by zero: `3 * games + 2` calls of
`play_random_game` are enough. -/
theorem montecasino_genmove_returns {β R F : Type} [LinearOrder F] (env : rules β R F)
    (fl : float_ops F) (mc : montecarlo F) (b : board β) (color : stone) (rng : R)
    (hdiv : mc.games.tdiv 2 ≠ 0) :
    ∃ res, montecasino_genmove env fl mc b color rng = some res := by
  obtain ⟨ex, hex⟩ := genmove_loop_returns env fl mc b color hdiv (3 * mc.games + 2).toNat
    genmove_init rng (loop_budget_init mc)
  exact ⟨_, by unfold montecasino_genmove; rw [hex]; rfl⟩

/-- With a budget of one playout, a playout that reaches line 152 does not
return: `mc->games / 2` is zero there. -/
theorem play_random_game_budget_one :
    play_random_game demo_rules rat_ops { demo_mc with games := 1 } demo_board
      ledger_zero stone.S_WHITE 0 [⟨2⟩, ⟨1⟩, ⟨-1⟩, ⟨-1⟩] = none := by
  with_unfolding_all rfl

/-! ## The end of a playout -/

/-- The function `play_random_game` in terms of `play_game`. -/
theorem play_random_game_eq {β R F : Type} [LinearOrder F] (env : rules β R F)
    (fl : float_ops F) (mc : montecarlo F) (b : board β) (moves : ledger) (m_color : stone)
    (i : Int) (rng : R) :
    play_random_game env fl mc b moves m_color i rng =
      if (env.board_play_random rng b m_color).2.2 = env.pass ∨ b.superko_violation = true then
        some ⟨-1, (env.board_play_random rng b m_color).2.2, moves,
          (env.board_play_random rng b m_color).1, env.pass, []⟩
      else if env.group_at (env.board_play_random rng b m_color).2.1
          (env.board_play_random rng b m_color).2.2 = false then
        some ⟨-3, (env.board_play_random rng b m_color).2.2, moves,
          (env.board_play_random rng b m_color).1, env.pass, []⟩
      else
        match play_game env mc b m_color rng with
        | play_status.superko s =>
          some ⟨-2, (env.board_play_random rng b m_color).2.2, moves, s.rng, s.next_move,
            s.plies⟩
        | play_status.running s =>
          if mc.games.tdiv 2 = 0 then none
          else
            some ⟨if (if m_color = stone.S_WHITE then decide (fl.zero < env.board_fast_score s.b2)
                else decide (env.board_fast_score s.b2 < fl.zero)) = true then 1 else 0,
              (env.board_play_random rng b m_color).2.2,
              if (if m_color = stone.S_WHITE then decide (fl.zero < env.board_fast_score s.b2)
                  else decide (env.board_fast_score s.b2 < fl.zero)) = false then
                wins_add (games_incr moves ((env.board_play_random rng b m_color).2.2.pos
                    * b.size2 + s.next_move.pos))
                  ((env.board_play_random rng b m_color).2.2.pos * b.size2 + s.next_move.pos) 1
              else games_incr moves ((env.board_play_random rng b m_color).2.2.pos
                  * b.size2 + s.next_move.pos),
              s.rng, s.next_move, s.plies⟩ := by
  rfl

/-- A call of `play_random_game` that returns `0` or `1` went through the
scoring of line 155 on the final board of `play_game`. -/
theorem play_random_game_scored {β R F : Type} [LinearOrder F] (env : rules β R F)
    (fl : float_ops F) (mc : montecarlo F) (b : board β) (moves : ledger) (m_color : stone)
    (i : Int) (rng : R) (r : play_return β R)
    (h : play_random_game env fl mc b moves m_color i rng = some r)
    (hscored : r.result = 1 ∨ r.result = 0) :
    ∃ s, play_game env mc b m_color rng = play_status.running s ∧
      r.result = (if (if m_color = stone.S_WHITE then decide (fl.zero < env.board_fast_score s.b2)
        else decide (env.board_fast_score s.b2 < fl.zero)) = true then 1 else 0) ∧
      r.next_move = s.next_move ∧ r.plies = s.plies := by
  rw [play_random_game_eq] at h
  split at h
  · cases h
    rcases hscored with e | e <;> simp at e
  · split at h
    · cases h
      rcases hscored with e | e <;> simp at e
    · split at h
      · cases h
        rcases hscored with e | e <;> simp at e
      · rename_i s hs
        split at h
        · cases h
        · cases h
          exact ⟨s, hs, rfl, rfl, rfl⟩

/-- C12: when `play_random_game` returns `1` or `0` (a scored playout), the
value is decided by the score of the final board of the playout: for a white
candidate it is `1` exactly when `score > 0`, for any other candidate colour it
is `1` exactly when `score < 0`, and it is `0` in every other case; a score
equal to `0` gives `0` for either colour. -/
theorem win_determination {β R F : Type} [LinearOrder F] (env : rules β R F)
    (fl : float_ops F) (mc : montecarlo F) (b : board β) (moves : ledger) (m_color : stone)
    (i : Int) (rng : R) (r : play_return β R)
    (h : play_random_game env fl mc b moves m_color i rng = some r)
    (hscored : r.result = 1 ∨ r.result = 0) :
    ∃ s, play_game env mc b m_color rng = play_status.running s ∧
      (m_color = stone.S_WHITE → (r.result = 1 ↔ fl.zero < env.board_fast_score s.b2)) ∧
      (m_color ≠ stone.S_WHITE → (r.result = 1 ↔ env.board_fast_score s.b2 < fl.zero)) ∧
      (r.result ≠ 1 → r.result = 0) ∧
      (env.board_fast_score s.b2 = fl.zero → r.result = 0) := by
  obtain ⟨s, hs, hres, _, _⟩ :=
    play_random_game_scored env fl mc b moves m_color i rng r h hscored
  refine ⟨s, hs, ?_, ?_, ?_, ?_⟩
  · intro hw
    rw [hres, if_pos hw]
    by_cases hlt : fl.zero < env.board_fast_score s.b2 <;> simp [hlt]
  · intro hw
    rw [hres, if_neg hw]
    by_cases hlt : env.board_fast_score s.b2 < fl.zero <;> simp [hlt]
  · intro hne
    rcases hscored with e | e
    · exact absurd e hne
    · exact e
  · intro hz
    rw [hres, hz]
    simp

/-- C12, at a call of `play_random_game` for white that ends with the score
`-1`: the value returned is `0`. -/
theorem win_determination_witness :
    ∃ s, play_game demo_rules { demo_mc with debug_level := 3 } demo_board stone.S_WHITE
        [⟨2⟩, ⟨1⟩, ⟨-1⟩, ⟨-1⟩] = play_status.running s ∧
      (stone.S_WHITE = stone.S_WHITE →
        (demo_scored_return.result = 1 ↔ rat_ops.zero < demo_rules.board_fast_score s.b2)) ∧
      (stone.S_WHITE ≠ stone.S_WHITE →
        (demo_scored_return.result = 1 ↔ demo_rules.board_fast_score s.b2 < rat_ops.zero)) ∧
      (demo_scored_return.result ≠ 1 → demo_scored_return.result = 0) ∧
      (demo_rules.board_fast_score s.b2 = rat_ops.zero → demo_scored_return.result = 0) :=
  win_determination demo_rules rat_ops { demo_mc with debug_level := 3 } demo_board
    ledger_zero stone.S_WHITE 0 [⟨2⟩, ⟨1⟩, ⟨-1⟩, ⟨-1⟩] demo_scored_return
    (by with_unfolding_all rfl) (Or.inr (by decide!))

/-! ## The ranking and the first-level wins -/

/-- A round of the ranking loop reads the `games` counter of the first-level
ledger only. -/
theorem rank_step_games {β F : Type} [LinearOrder F] (fl : float_ops F) (b : board β)
    (moves1 moves2 second_moves : ledger)
    (hgames : ∀ k : Int, (moves1 k).games = (moves2 k).games) :
    rank_step fl b moves1 second_moves = rank_step fl b moves2 second_moves := by
  funext top c
  unfold rank_step
  rw [hgames]

/-- C15: for two first-level ledgers with the same `games` counters (their
`wins` counters may differ), the same second-level ledger and the same
resignation threshold, the ranking loop of `montecasino_genmove` ends with the
same coordinate and the same ratio. -/
theorem ranking_ignores_wins {β R F : Type} [LinearOrder F] (env : rules β R F)
    (fl : float_ops F) (mc : montecarlo F) (b : board β) (moves1 moves2 second_moves : ledger)
    (hgames : ∀ k : Int, (moves1 k).games = (moves2 k).games) :
    (genmove_rank env fl mc b moves1 second_moves).1
        = (genmove_rank env fl mc b moves2 second_moves).1 ∧
      (genmove_rank env fl mc b moves1 second_moves).2
        = (genmove_rank env fl mc b moves2 second_moves).2 := by
  unfold genmove_rank
  rw [rank_step_games fl b moves1 moves2 second_moves hgames]
  exact ⟨rfl, rfl⟩

/-- C15, at the ledgers of `demo_playouts` and the same first-level ledger
without its wins. -/
theorem ranking_ignores_wins_witness :
    (genmove_rank demo_rules rat_ops demo_mc demo_board demo_final.moves
        demo_final.second_moves).1
      = (genmove_rank demo_rules rat_ops demo_mc demo_board demo_moves_no_wins
        demo_final.second_moves).1 ∧
    (genmove_rank demo_rules rat_ops demo_mc demo_board demo_final.moves
        demo_final.second_moves).2
      = (genmove_rank demo_rules rat_ops demo_mc demo_board demo_moves_no_wins
        demo_final.second_moves).2 :=
  ranking_ignores_wins demo_rules rat_ops demo_mc demo_board demo_final.moves
    demo_moves_no_wins demo_final.second_moves (fun _ => rfl)

/-! ## The early stop -/

/-- C13, refuted at the first round of a run with the early-stop index `0`
whose playout is a multi-stone suicide: the loss counter is zero and `i` equals
`loss_threshold`, and the round does not leave the loop. -/
theorem early_stop_counterexample :
    ¬ ((∃ s, genmove_body demo_rules early_mc demo_board genmove_init
          outcome.MultiStoneSuicide.result ⟨3⟩ = loop_step.break_loop s) ↔
        (genmove_init.losses = 0 ∧ genmove_init.i = early_mc.loss_threshold)) := by
  intro h
  obtain ⟨s, hs⟩ := h.mpr ⟨rfl, rfl⟩
  have hc : genmove_body demo_rules early_mc demo_board genmove_init
      outcome.MultiStoneSuicide.result ⟨3⟩ = loop_step.continue_loop genmove_init := rfl
  rw [hc] at hs
  cases hs

/-- C13 as amended: a round of the playout loop leaves the loop early (by the
`break` of line 259) if and only if its playout is scored (Win or Loss), the
candidate is not set aside by the opening heuristic, the loss counter after the
playout is zero, and `i` equals `loss_threshold`. -/
theorem early_stop_iff {β R F : Type} (env : rules β R F) (mc : montecarlo F) (b : board β)
    (st : loop_state) (o : outcome) (coord : coord_t) :
    (∃ s, genmove_body env mc b st o.result coord = loop_step.break_loop s) ↔
      ((o = outcome.Win ∨ o = outcome.Loss) ∧
        ¬ (b.moves < 3 ∧ (env.coord_x coord < 3 ∨ env.coord_x coord > b.size - 4
          ∨ env.coord_y coord < 3 ∨ env.coord_y coord > b.size - 4)) ∧
        st.losses + (1 - o.result) = 0 ∧ st.i = mc.loss_threshold) := by
  unfold genmove_body
  cases o <;> simp only [outcome.result]
  · simp only [show ¬ ((1 : Int) = -1) by decide, show ¬ ((1 : Int) = -2) by decide,
      show ¬ ((1 : Int) = -3) by decide, if_false]
    split_ifs with h1 h2
    · simp [h1]
    · refine ⟨fun _ => ⟨by simp, h1, h2.1, h2.2⟩, fun _ => ⟨_, rfl⟩⟩
    · constructor
      · rintro ⟨s, hs⟩
        cases hs
      · rintro ⟨_, _, h3, h4⟩
        exact absurd ⟨h3, h4⟩ h2
  · simp only [show ¬ ((0 : Int) = -1) by decide, show ¬ ((0 : Int) = -2) by decide,
      show ¬ ((0 : Int) = -3) by decide, if_false]
    split_ifs with h1 h2
    · simp [h1]
    · refine ⟨fun _ => ⟨by simp, h1, h2.1, h2.2⟩, fun _ => ⟨_, rfl⟩⟩
    · constructor
      · rintro ⟨s, hs⟩
        cases hs
      · rintro ⟨_, _, h3, h4⟩
        exact absurd ⟨h3, h4⟩ h2
  · simp
  · simp only [show ¬ ((-2 : Int) = -1) by decide, if_false, if_true]
    split_ifs <;> simp
  · simp only [show ¬ ((-3 : Int) = -1) by decide, show ¬ ((-3 : Int) = -2) by decide,
      if_false, if_true]
    simp

/-! ## Runs with the early stop disabled -/

/-- C14, refuted on two won playouts with a budget of two: with the early-stop
index `0` the loop stops after the first playout and point `2` is returned,
with the early stop disabled (`loss_threshold = 2`) point `0` is returned. -/
theorem early_stop_changes_decision :
    (genmove_playouts demo_rules rat_ops early_mc demo_board early_playouts).map
        (fun res => res.top_coord) = some ⟨2⟩ ∧
    (genmove_playouts demo_rules rat_ops { early_mc with loss_threshold := 2 } demo_board
        early_playouts).map (fun res => res.top_coord) = some ⟨0⟩ := by
  decide!

/-- The round that leaves the loop early does so at the index it started with. -/
theorem genmove_body_break_index {β R F : Type} (env : rules β R F) (mc : montecarlo F)
    (b : board β) (st s : loop_state) (result : Int) (coord : coord_t)
    (h : genmove_body env mc b st result coord = loop_step.break_loop s) : s.i = st.i := by
  unfold genmove_body at h
  split at h
  · cases h
  · split at h
    · split at h <;> cases h
    · split at h
      · cases h
      · simp only at h
        split at h
        · cases h
        · split at h
          · cases h
            rfl
          · cases h

/-- With a disabled early stop a round ends as with any `loss_threshold`,
except that it goes on where the other leaves the loop early. -/
theorem genmove_body_disabled {β R F : Type} (env : rules β R F) (mc : montecarlo F)
    (b : board β) (t : Int) (st : loop_state) (result : Int) (coord : coord_t)
    (hi : st.i < mc.games) (hoff : mc.games ≤ t) :
    genmove_body env { mc with loss_threshold := t } b st result coord =
      match genmove_body env mc b st result coord with
      | loop_step.break_loop s => loop_step.continue_loop s
      | x => x := by
  have hne : ¬ st.i = t := by omega
  unfold genmove_body
  simp only [hne, and_false, if_false]
  split
  · rfl
  · split
    · split <;> rfl
    · split
      · rfl
      · split
        · rfl
        · by_cases hC : st.losses + (1 - result) = 0 ∧ st.i = mc.loss_threshold
          · rw [if_pos hC]
          · rw [if_neg hC]

/-- A run that does not stop early is the run with the early stop disabled. -/
theorem run_playouts_disabled {β R F : Type} (env : rules β R F) (mc : montecarlo F)
    (b : board β) (t : Int) (hoff : mc.games ≤ t) (ps : List playout) (st : loop_state)
    (ex : loop_exit) (hrun : run_playouts env mc b st ps = some ex)
    (hfull : ∀ s, ex = loop_exit.done s → mc.games ≤ s.i) :
    run_playouts env { mc with loss_threshold := t } b st ps = some ex := by
  induction ps generalizing st with
  | nil =>
    unfold run_playouts at hrun ⊢
    exact hrun
  | cons p ps ih =>
    rw [run_playouts_cons] at hrun ⊢
    by_cases hi : st.i < mc.games
    · have hi2 : st.i < ({ mc with loss_threshold := t } : montecarlo F).games := hi
      rw [if_pos hi] at hrun
      rw [if_pos hi2, genmove_body_disabled env mc b t
        { st with second_moves := p.record b.size2 st.second_moves } _ _ hi hoff]
      cases hbody : genmove_body env mc b
          { st with second_moves := p.record b.size2 st.second_moves }
          p.outcome.result p.coord with
      | goto_pass_wins s =>
        rw [hbody] at hrun
        exact hrun
      | break_loop s =>
        rw [hbody] at hrun
        simp only [Option.some.injEq] at hrun
        have hs := genmove_body_break_index env mc b _ s _ _ hbody
        have := hfull s hrun.symm
        simp only at hs
        omega
      | continue_loop s =>
        rw [hbody] at hrun
        exact ih _ hrun
    · have hi2 : ¬ st.i < ({ mc with loss_threshold := t } : montecarlo F).games := hi
      rw [if_neg hi] at hrun
      rw [if_neg hi2]
      exact hrun

/-- C14 as amended: on a sequence of playouts on which the playout loop does
not stop early (it is left at `pass_wins`, or with `i ≥ games`), the run with
the early stop disabled (`loss_threshold ≥ games`) leaves the loop in the same
state and returns the same coordinate, ratio and ledgers. -/
theorem early_stop_disabled_same {β R F : Type} [LinearOrder F] (env : rules β R F)
    (fl : float_ops F) (mc : montecarlo F) (b : board β) (t : Int) (ps : List playout)
    (ex : loop_exit) (hoff : mc.games ≤ t)
    (hrun : run_playouts env mc b genmove_init ps = some ex)
    (hfull : ∀ s, ex = loop_exit.done s → mc.games ≤ s.i) :
    run_playouts env { mc with loss_threshold := t } b genmove_init ps = some ex ∧
    (genmove_playouts env fl { mc with loss_threshold := t } b ps).map genmove_result.view
      = (genmove_playouts env fl mc b ps).map genmove_result.view := by
  have h := run_playouts_disabled env mc b t hoff ps genmove_init ex hrun hfull
  refine ⟨h, ?_⟩
  unfold genmove_playouts
  rw [h, hrun]
  cases ex <;> rfl

/-- C14 as amended, at the four playouts `demo_playouts`, whose first playout
is lost: the run with `loss_threshold = 3` does not stop early. -/
theorem early_stop_disabled_same_witness :
    run_playouts demo_rules { demo_mc with loss_threshold := 4 } demo_board genmove_init
        demo_playouts = some (loop_exit.done demo_final) ∧
    (genmove_playouts demo_rules rat_ops { demo_mc with loss_threshold := 4 } demo_board
        demo_playouts).map genmove_result.view
      = (genmove_playouts demo_rules rat_ops demo_mc demo_board demo_playouts).map
        genmove_result.view :=
  early_stop_disabled_same demo_rules rat_ops demo_mc demo_board 4 demo_playouts
    (loop_exit.done demo_final) (by decide) rfl
    (fun s hs => by
      have e : demo_final = s := by injection hs
      rw [← e]
      decide)

/-! ## The order of the playouts -/

/-- The entry `x` after the write `moves[j].games++`. -/
theorem games_incr_apply (l : ledger) (j x : Int) :
    games_incr l j x = ⟨(l x).games + (if x = j then 1 else 0), (l x).wins⟩ := by
  unfold games_incr
  split <;> simp

/-- The entry `x` after the write `moves[j].wins += d`. -/
theorem wins_add_apply (l : ledger) (j d x : Int) :
    wins_add l j d x = ⟨(l x).games, (l x).wins + (if x = j then d else 0)⟩ := by
  unfold wins_add
  split <;> simp

/-- Two `games` increments commute. -/
theorem games_incr_comm (l : ledger) (j k : Int) :
    games_incr (games_incr l j) k = games_incr (games_incr l k) j := by
  funext x
  simp only [games_incr_apply]
  congr 1
  ring

/-- A `wins` addition commutes with a `games` increment. -/
theorem wins_add_games_incr (l : ledger) (j k d : Int) :
    wins_add (games_incr l j) k d = games_incr (wins_add l k d) j := by
  funext x
  simp only [games_incr_apply, wins_add_apply]

/-- Two `wins` additions commute. -/
theorem wins_add_comm (l : ledger) (j k d e : Int) :
    wins_add (wins_add l j d) k e = wins_add (wins_add l k e) j d := by
  funext x
  simp only [wins_add_apply]
  congr 1
  ring

/-- The ledger writes of two playouts commute. -/
theorem record_comm (p q : playout) (size2 : Int) (l : ledger) :
    q.record size2 (p.record size2 l) = p.record size2 (q.record size2 l) := by
  funext x
  unfold playout.record
  cases p.outcome <;> cases q.outcome <;>
    simp only [games_incr_apply, wins_add_apply] <;> congr 1 <;> ring

/-- The state after a round for a scored playout, when the round does not
leave the loop. -/
theorem next_round_scored {β R F : Type} (env : rules β R F) (mc : montecarlo F)
    (b : board β) (st : loop_state) (p : playout)
    (hp : p.outcome = outcome.Win ∨ p.outcome = outcome.Loss) :
    next_round env mc b st p =
      ⟨if b.moves < 3 ∧ (env.coord_x p.coord < 3 ∨ env.coord_x p.coord > b.size - 4
            ∨ env.coord_y p.coord < 3 ∨ env.coord_y p.coord > b.size - 4) then
          games_incr st.moves p.coord.pos
        else wins_add (games_incr st.moves p.coord.pos) p.coord.pos p.outcome.result,
        p.record b.size2 st.second_moves,
        if b.moves < 3 ∧ (env.coord_x p.coord < 3 ∨ env.coord_x p.coord > b.size - 4
            ∨ env.coord_y p.coord < 3 ∨ env.coord_y p.coord > b.size - 4) then st.losses
        else st.losses + (1 - p.outcome.result),
        st.i + 1, st.superko, st.good_games + 1⟩ := by
  have hr : p.outcome.result ≠ -1 ∧ p.outcome.result ≠ -2 ∧ p.outcome.result ≠ -3 := by
    rcases hp with h | h <;> rw [h] <;> decide
  unfold next_round genmove_body
  simp only [hr.1, hr.2.1, hr.2.2, if_false]
  split
  · rfl
  · split <;> rfl

/-- The rounds of two scored playouts commute. -/
theorem next_round_comm {β R F : Type} (env : rules β R F) (mc : montecarlo F)
    (b : board β) (st : loop_state) (p q : playout)
    (hp : p.outcome = outcome.Win ∨ p.outcome = outcome.Loss)
    (hq : q.outcome = outcome.Win ∨ q.outcome = outcome.Loss) :
    next_round env mc b (next_round env mc b st p) q
      = next_round env mc b (next_round env mc b st q) p := by
  rw [next_round_scored env mc b _ q hq, next_round_scored env mc b st p hp,
    next_round_scored env mc b _ p hp, next_round_scored env mc b st q hq]
  simp only
  congr 1
  · funext x
    split_ifs <;> simp only [games_incr_apply, wins_add_apply] <;> congr 1 <;> ring
  · exact record_comm p q b.size2 st.second_moves
  · split_ifs <;> ring

/-- A round for a scored playout at an index other than `loss_threshold` goes
on with the loop. -/
theorem genmove_body_scored_continue {β R F : Type} (env : rules β R F) (mc : montecarlo F)
    (b : board β) (st : loop_state) (o : outcome) (coord : coord_t)
    (ho : o = outcome.Win ∨ o = outcome.Loss) (hi : st.i ≠ mc.loss_threshold) :
    genmove_body env mc b st o.result coord
      = loop_step.continue_loop (genmove_body env mc b st o.result coord).state := by
  have hr : o.result ≠ -1 ∧ o.result ≠ -2 ∧ o.result ≠ -3 := by
    rcases ho with h | h <;> rw [h] <;> decide
  unfold genmove_body
  simp only [hr.1, hr.2.1, hr.2.2, hi, and_false, if_false]
  split <;> rfl

/-- With the early stop disabled, the loop on exactly as many scored playouts
as the budget has left ends, by its condition, in the state the rounds build. -/
theorem run_playouts_scored {β R F : Type} (env : rules β R F) (mc : montecarlo F)
    (b : board β) (hoff : mc.games ≤ mc.loss_threshold) (ps : List playout) (st : loop_state)
    (hscored : ∀ p ∈ ps, p.outcome = outcome.Win ∨ p.outcome = outcome.Loss)
    (hlen : st.i + (ps.length : Int) = mc.games) :
    run_playouts env mc b st ps = some (loop_exit.done (ps.foldl (next_round env mc b) st)) := by
  induction ps generalizing st with
  | nil =>
    have hi : ¬ st.i < mc.games := by
      simp only [List.length_nil, Nat.cast_zero, add_zero] at hlen
      omega
    simp [run_playouts, hi]
  | cons p ps ih =>
    have hp := hscored p (List.mem_cons_self _ _)
    have hi : st.i < mc.games := by
      simp only [List.length_cons, Nat.cast_succ] at hlen
      omega
    have hne : ({ st with second_moves := p.record b.size2 st.second_moves } : loop_state).i
        ≠ mc.loss_threshold := by
      simp only
      omega
    rw [run_playouts_cons, if_pos hi,
      genmove_body_scored_continue env mc b _ p.outcome p.coord hp hne]
    simp only [List.foldl_cons]
    refine ih (next_round env mc b st p) (fun q hq => hscored q (List.mem_cons_of_mem _ hq)) ?_
    rw [next_round_scored env mc b st p hp]
    simp only [List.length_cons, Nat.cast_succ] at hlen
    simp only
    omega

/-- C16: with the early stop disabled (`loss_threshold ≥ games`), for every
sequence of `games` scored playouts (candidate coordinate, next-move
coordinate, Win or Loss) and every permutation of it, `montecasino_genmove`
returns on both, with the same decision, the same ratio and the same
first-level and second-level ledgers. -/
theorem order_independence {β R F : Type} [LinearOrder F] (env : rules β R F)
    (fl : float_ops F) (mc : montecarlo F) (b : board β) (ps qs : List playout)
    (hperm : ps.Perm qs)
    (hscored : ∀ p ∈ ps, p.outcome = outcome.Win ∨ p.outcome = outcome.Loss)
    (hoff : mc.games ≤ mc.loss_threshold)
    (hlen : (ps.length : Int) = mc.games) :
    (∃ res, genmove_playouts env fl mc b ps = some res) ∧
    (genmove_playouts env fl mc b qs).map genmove_result.view
      = (genmove_playouts env fl mc b ps).map genmove_result.view := by
  have hscored2 : ∀ p ∈ qs, p.outcome = outcome.Win ∨ p.outcome = outcome.Loss :=
    fun p hp => hscored p (hperm.symm.subset hp)
  have h1 := run_playouts_scored env mc b hoff ps genmove_init hscored
    (by simpa [genmove_init] using hlen)
  have h2 := run_playouts_scored env mc b hoff qs genmove_init hscored2
    (by rw [← hperm.length_eq]; simpa [genmove_init] using hlen)
  have hfold : qs.foldl (next_round env mc b) genmove_init
      = ps.foldl (next_round env mc b) genmove_init :=
    (hperm.foldl_eq' (fun x hx y hy z =>
      next_round_comm env mc b z x y (hscored x hx) (hscored y hy)) genmove_init).symm
  unfold genmove_playouts
  rw [h1, h2, hfold]
  exact ⟨⟨_, rfl⟩, rfl⟩

/-- C16, at the four playouts `demo_playouts` and a permutation of them, with
`loss_threshold = 4`. -/
theorem order_independence_witness :
    (∃ res, genmove_playouts demo_rules rat_ops { demo_mc with loss_threshold := 4 }
        demo_board demo_playouts = some res) ∧
    (genmove_playouts demo_rules rat_ops { demo_mc with loss_threshold := 4 } demo_board
        demo_playouts_permuted).map genmove_result.view
      = (genmove_playouts demo_rules rat_ops { demo_mc with loss_threshold := 4 } demo_board
        demo_playouts).map genmove_result.view :=
  order_independence demo_rules rat_ops { demo_mc with loss_threshold := 4 } demo_board
    demo_playouts demo_playouts_permuted (by decide) (by decide) (by decide) (by decide)

/-! ## The debug level and the recorded next move -/

/-- C11, the code at two parameter sets that differ in `debug_level` only (`0`
and `3`), on the same position and random stream.  A playout for candidate `2`
answered at `1` returns `0` at both levels, but leaves `next_move` at pass and
writes entry `7` at level `0`, and records `next_move = 1` and writes entry `9`
at level `3`; on the stream `debug_rng`, `montecasino_genmove` returns point `2`
at level `0` and point `1` at level `3`. -/
theorem debug_level_changes_decision :
    (play_random_game demo_rules rat_ops demo_mc demo_board ledger_zero stone.S_WHITE 0
        [⟨2⟩, ⟨1⟩, ⟨-1⟩, ⟨-1⟩]).map
      (fun r => (r.result, r.next_move, (r.moves 7).games, (r.moves 9).games))
      = some (0, ⟨-1⟩, 1, 0) ∧
    (play_random_game demo_rules rat_ops { demo_mc with debug_level := 3 } demo_board
        ledger_zero stone.S_WHITE 0 [⟨2⟩, ⟨1⟩, ⟨-1⟩, ⟨-1⟩]).map
      (fun r => (r.result, r.next_move, (r.moves 7).games, (r.moves 9).games))
      = some (0, ⟨1⟩, 0, 1) ∧
    (montecasino_genmove demo_rules rat_ops demo_mc demo_board stone.S_WHITE debug_rng).map
      (fun res => res.top_coord) = some ⟨2⟩ ∧
    (montecasino_genmove demo_rules rat_ops { demo_mc with debug_level := 3 } demo_board
        stone.S_WHITE debug_rng).map (fun res => res.top_coord) = some ⟨1⟩ := by
  decide!

/-! ## Superko at the root -/

/-- C17, the code at a rules engine where playing point `1` on the copy of the
position sets the copy's superko flag while the position's own flag is clear:
the playouts that start with point `1` are scored, point `1` gets four games in
the first-level ledger, and `montecasino_genmove` returns point `1`. -/
theorem superko_at_root_returned :
    demo_board.superko_violation = false ∧
    (superko_rules.board_play_random superko_rng demo_board stone.S_WHITE).2.2 = ⟨1⟩ ∧
    (superko_rules.board_play_random superko_rng demo_board
        stone.S_WHITE).2.1.superko_violation = true ∧
    (montecasino_genmove superko_rules rat_ops demo_mc demo_board stone.S_WHITE
        superko_rng).map (fun res => (res.top_coord, (res.final.moves 1).games))
      = some (⟨1⟩, 4) := by
  decide!

/-! ## The opening heuristic -/

/-- C18, the code on a board before the first move (`b->moves = 0 < 3`) and two
won playouts for the corner point `(1, 1)`, a point of the first line:
`montecasino_genmove` returns that point. -/
theorem opening_low_move_returned :
    opening_board.moves < 3 ∧ opening_rules.coord_x ⟨12⟩ < 3 ∧ opening_rules.coord_y ⟨12⟩ < 3 ∧
    (genmove_playouts opening_rules rat_ops early_mc opening_board opening_playouts).map
      (fun res => res.top_coord) = some ⟨12⟩ := by
  decide!

/-! ## The number of plies of a playout -/

/-- C20, the code at a length cap `mc->gamelen = 12` on a board of five moves
(so that `max(10, gamelen - moves) = 10`, before and after the candidate move)
with an oracle that suggests point `0` before the loop and in it: the playout
plays eleven plies after the candidate move, none of them a pass. -/
theorem urgent_hint_extra_ply :
    max 10 (({ demo_mc with gamelen := 12 } : montecarlo ℚ).gamelen - demo_board.moves) = 10 ∧
    max 10 (({ demo_mc with gamelen := 12 } : montecarlo ℚ).gamelen
      - (urgent_rules.board_play_random [⟨2⟩] demo_board stone.S_WHITE).2.1.moves) = 10 ∧
    (play_random_game urgent_rules rat_ops { demo_mc with gamelen := 12 } demo_board
        ledger_zero stone.S_WHITE 0 [⟨2⟩]).map
      (fun r => (r.plies.length, r.plies.all (fun p => decide (p.coord ≠ urgent_rules.pass))))
      = some (11, true) := by
  decide!

/-! ## The oracle queries of a playout -/

/-- The two ends of a ply: both add one record to the log, made of the query
the ply was given, the colour that moves and the coordinate played; the normal
end hands the move to the other colour. -/
theorem play_ply_eq {β R F : Type} (env : rules β R F) (mc : montecarlo F)
    (st : playout_state β R) (hint_board : board β) (hint_color : stone) (urgent : coord_t) :
    ∃ (rng : R) (b2 : board β) (coord next_move : coord_t) (passes : Int),
      play_ply env mc st hint_board hint_color urgent
        = play_status.superko ⟨b2, st.color, next_move, st.passes, rng,
            st.plies ++ [⟨hint_board, hint_color, st.color, coord⟩]⟩ ∨
      play_ply env mc st hint_board hint_color urgent
        = play_status.running ⟨b2, stone_other st.color, next_move, passes, rng,
            st.plies ++ [⟨hint_board, hint_color, st.color, coord⟩]⟩ := by
  unfold play_ply
  simp only
  split_ifs <;> first
    | exact ⟨_, _, _, _, 0, Or.inl rfl⟩
    | exact ⟨_, _, _, _, _, Or.inr rfl⟩

/-- A ply adds one record to the log: the query it was given and the colour
that moves. -/
theorem play_ply_plies {β R F : Type} (env : rules β R F) (mc : montecarlo F)
    (st : playout_state β R) (hint_board : board β) (hint_color : stone) (urgent : coord_t) :
    (play_ply env mc st hint_board hint_color urgent).state.plies.map ply_record.query
      = st.plies.map ply_record.query ++ [(hint_board, hint_color, st.color)] := by
  obtain ⟨rng, b2, coord, nm, passes, h | h⟩ :=
    play_ply_eq env mc st hint_board hint_color urgent <;>
  · rw [h]
    simp [play_status.state, ply_record.query]

/-- A ply that does not end the playout hands the move to the other colour. -/
theorem play_ply_color {β R F : Type} (env : rules β R F) (mc : montecarlo F)
    (st s : playout_state β R) (hint_board : board β) (hint_color : stone) (urgent : coord_t)
    (h : play_ply env mc st hint_board hint_color urgent = play_status.running s) :
    s.color = stone_other st.color := by
  obtain ⟨rng, b2, coord, nm, passes, h2 | h2⟩ :=
    play_ply_eq env mc st hint_board hint_color urgent
  · rw [h2] at h
    cases h
  · rw [h2] at h
    cases h
    rfl

/-- The log after the loop: one record for each round, with the position and
the mover of the round's start and the candidate's colour as the colour of the
query. -/
theorem play_loop_plies {β R F : Type} (env : rules β R F) (mc : montecarlo F)
    (m_color : stone) (gamelen : Nat) (st : playout_state β R) :
    (play_loop env mc m_color gamelen st).state.plies.map ply_record.query
      = st.plies.map ply_record.query
        ++ (play_loop_starts env mc m_color gamelen st).map (fun s => (s.b2, m_color, s.color)) := by
  induction gamelen generalizing st with
  | zero => simp [play_loop, play_loop_starts, play_status.state]
  | succ n ih =>
    unfold play_loop play_loop_starts
    by_cases hp : st.passes < 2
    · rw [if_pos hp, if_pos hp]
      have hply := play_ply_plies env mc
        { st with rng := (env.domain_hint mc st.rng st.b2 m_color).1 } st.b2 m_color
        (env.domain_hint mc st.rng st.b2 m_color).2
      simp only at hply ⊢
      cases hs : play_ply env mc
          { st with rng := (env.domain_hint mc st.rng st.b2 m_color).1 } st.b2 m_color
          (env.domain_hint mc st.rng st.b2 m_color).2 with
      | superko s =>
        rw [hs] at hply
        simp only [play_status.state] at hply ⊢
        rw [hply]
        simp
      | running s =>
        rw [hs] at hply
        simp only [play_status.state] at hply
        simp only
        rw [ih s, hply]
        simp
    · rw [if_neg hp, if_neg hp]
      simp [play_status.state]

/-- The movers of the rounds of the loop alternate. -/
theorem play_loop_starts_color {β R F : Type} (env : rules β R F) (mc : montecarlo F)
    (m_color : stone) (gamelen : Nat) (st : playout_state β R) :
    (play_loop_starts env mc m_color gamelen st).map (fun s => s.color)
      = (List.range (play_loop_starts env mc m_color gamelen st).length).map
          (fun k => stone_other^[k] st.color) := by
  induction gamelen generalizing st with
  | zero => simp [play_loop_starts]
  | succ n ih =>
    unfold play_loop_starts
    by_cases hp : st.passes < 2
    · rw [if_pos hp]
      cases hs : play_ply env mc
          { st with rng := (env.domain_hint mc st.rng st.b2 m_color).1 } st.b2 m_color
          (env.domain_hint mc st.rng st.b2 m_color).2 with
      | superko s => simp [List.range_succ_eq_map]
      | running s =>
        have hc := play_ply_color env mc _ s _ _ _ hs
        simp only at hc
        simp only [List.map_cons, List.length_cons, List.range_succ_eq_map, List.map_map,
          Function.iterate_zero, id_eq, List.cons.injEq, true_and]
        rw [ih s, hc]
        apply List.map_congr_left
        intro k _
        simp [Function.iterate_succ_apply]
    · rw [if_neg hp]
      simp

/-- The loop runs at most `gamelen` rounds. -/
theorem play_loop_starts_length {β R F : Type} (env : rules β R F) (mc : montecarlo F)
    (m_color : stone) (gamelen : Nat) (st : playout_state β R) :
    (play_loop_starts env mc m_color gamelen st).length ≤ gamelen := by
  induction gamelen generalizing st with
  | zero => simp [play_loop_starts]
  | succ n ih =>
    unfold play_loop_starts
    split
    · split
      · simp
      · simp only [List.length_cons]
        exact Nat.succ_le_succ (ih _)
    · simp

/-- The log of `play_game`: one record for each ply, asked with the candidate's
colour; the position of the query is the position at the start of the ply,
except for a ply entered at `play_urgent`, asked on the original position. -/
theorem play_game_plies {β R F : Type} (env : rules β R F) (mc : montecarlo F) (b : board β)
    (m_color : stone) (rng : R) :
    (play_game env mc b m_color rng).state.plies.map (fun p => (p.hint_color, p.color))
      = (play_game_starts env mc b m_color rng).map (fun s => (m_color, s.color)) ∧
    (play_game env mc b m_color rng).state.plies.map (fun p => p.hint_board)
      = (if (env.domain_hint mc (env.board_play_random rng b m_color).1 b m_color).2 ≠ env.pass
          then b :: ((play_game_starts env mc b m_color rng).map (fun s => s.b2)).tail
          else (play_game_starts env mc b m_color rng).map (fun s => s.b2)) := by
  have hproj1 : ∀ l : List (ply_record β), l.map (fun p => (p.hint_color, p.color))
      = (l.map ply_record.query).map (fun q => q.2) := by
    intro l
    simp [ply_record.query]
  have hproj2 : ∀ l : List (ply_record β), l.map (fun p => p.hint_board)
      = (l.map ply_record.query).map (fun q => q.1) := by
    intro l
    simp [ply_record.query]
  rw [hproj1, hproj2]
  unfold play_game play_game_starts
  simp only
  by_cases hu : (env.domain_hint mc (env.board_play_random rng b m_color).1 b m_color).2
      ≠ env.pass
  · rw [if_pos hu, if_pos hu, if_pos hu]
    have hply := play_ply_plies env mc
      (⟨(env.board_play_random rng b m_color).2.1, stone_other m_color, env.pass, 0,
        (env.domain_hint mc (env.board_play_random rng b m_color).1 b m_color).1, []⟩ :
        playout_state β R) b m_color
      (env.domain_hint mc (env.board_play_random rng b m_color).1 b m_color).2
    cases hs : play_ply env mc
        (⟨(env.board_play_random rng b m_color).2.1, stone_other m_color, env.pass, 0,
          (env.domain_hint mc (env.board_play_random rng b m_color).1 b m_color).1, []⟩ :
          playout_state β R) b m_color
        (env.domain_hint mc (env.board_play_random rng b m_color).1 b m_color).2 with
    | superko s =>
      rw [hs] at hply
      simp only [play_status.state] at hply ⊢
      rw [hply]
      simp
    | running s =>
      rw [hs] at hply
      simp only [play_status.state] at hply
      simp only
      rw [play_loop_plies, hply]
      simp [Function.comp_def]
  · rw [if_neg hu, if_neg hu, if_neg hu, play_loop_plies]
    simp [Function.comp_def]

/-- The movers of the plies of `play_game` alternate, the opponent first. -/
theorem play_game_starts_color {β R F : Type} (env : rules β R F) (mc : montecarlo F)
    (b : board β) (m_color : stone) (rng : R) :
    (play_game_starts env mc b m_color rng).map (fun s => s.color)
      = (List.range (play_game_starts env mc b m_color rng).length).map
          (fun k => stone_other^[k + 1] m_color) := by
  unfold play_game_starts
  simp only
  split
  · cases hs : play_ply env mc
        (⟨(env.board_play_random rng b m_color).2.1, stone_other m_color, env.pass, 0,
          (env.domain_hint mc (env.board_play_random rng b m_color).1 b m_color).1, []⟩ :
          playout_state β R) b m_color
        (env.domain_hint mc (env.board_play_random rng b m_color).1 b m_color).2 with
    | superko s => simp [List.range_succ_eq_map]
    | running s =>
      have hc := play_ply_color env mc _ s _ _ _ hs
      simp only at hc
      simp only [List.map_cons, List.length_cons, List.range_succ_eq_map, List.map_map,
        Function.iterate_succ, Function.iterate_zero, Function.comp_apply, id_eq,
        List.cons.injEq, true_and]
      rw [play_loop_starts_color, hc]
      apply List.map_congr_left
      intro k _
      simp [Function.iterate_succ_apply]
  · rw [play_loop_starts_color]
    apply List.map_congr_left
    intro k _
    simp [Function.iterate_succ_apply]

/-- The ghost log a call of `play_random_game` returns is the log of
`play_game`, when the call got as far as the loop of plies. -/
theorem play_random_game_plies {β R F : Type} [LinearOrder F] (env : rules β R F)
    (fl : float_ops F) (mc : montecarlo F) (b : board β) (moves : ledger) (m_color : stone)
    (i : Int) (rng : R) (r : play_return β R)
    (h : play_random_game env fl mc b moves m_color i rng = some r)
    (hloop : r.result ≠ -1 ∧ r.result ≠ -3) :
    r.plies = (play_game env mc b m_color rng).state.plies := by
  rw [play_random_game_eq] at h
  split at h
  · cases h
    exact absurd rfl hloop.1
  · split at h
    · cases h
      exact absurd rfl hloop.2
    · split at h
      · rename_i s hs
        cases h
        rw [hs]
        rfl
      · rename_i s hs
        split at h
        · cases h
        · cases h
          rw [hs]
          rfl

/-- C19, refuted at two calls of `play_random_game` for a white candidate.
With `demo_rules`, the oracle is asked with white on each of the three plies,
the first and the third of which are played by black.  With `urgent_rules`, the
first ply uses the hint asked on the original position, of five moves, while the
playout position has six. -/
theorem oracle_colour_counterexample :
    (play_random_game demo_rules rat_ops demo_mc demo_board ledger_zero stone.S_WHITE 0
        [⟨2⟩, ⟨1⟩, ⟨-1⟩, ⟨-1⟩]).map (fun r => r.plies.map (fun p => (p.hint_color, p.color)))
      = some [(stone.S_WHITE, stone.S_BLACK), (stone.S_WHITE, stone.S_WHITE),
          (stone.S_WHITE, stone.S_BLACK)] ∧
    (play_random_game urgent_rules rat_ops { demo_mc with gamelen := 12 } demo_board
        ledger_zero stone.S_WHITE 0 [⟨2⟩]).map
      (fun r => r.plies.head?.map (fun p => p.hint_board.moves)) = some (some 5) ∧
    (urgent_rules.board_play_random [⟨2⟩] demo_board stone.S_WHITE).2.1.moves = 6 := by
  decide!

/-- C19 as amended: in a call of `play_random_game` that gets as far as the
loop of plies, the oracle query of every ply has the candidate's colour
`m->color` as its colour, whatever colour moves; the movers alternate, the
opponent first.  The position of the query is the playout position at the
start of the ply, except for a first ply entered at `play_urgent`, whose hint
was asked on the original position `b` before the loop. -/
theorem oracle_queries {β R F : Type} [LinearOrder F] (env : rules β R F)
    (fl : float_ops F) (mc : montecarlo F) (b : board β) (moves : ledger) (m_color : stone)
    (i : Int) (rng : R) (r : play_return β R)
    (h : play_random_game env fl mc b moves m_color i rng = some r)
    (hloop : r.result ≠ -1 ∧ r.result ≠ -3) :
    r.plies.map (fun p => (p.hint_color, p.color))
      = (List.range r.plies.length).map (fun k => (m_color, stone_other^[k + 1] m_color)) ∧
    r.plies.map (fun p => p.hint_board)
      = (if (env.domain_hint mc (env.board_play_random rng b m_color).1 b m_color).2 ≠ env.pass
          then b :: ((play_game_starts env mc b m_color rng).map (fun s => s.b2)).tail
          else (play_game_starts env mc b m_color rng).map (fun s => s.b2)) := by
  have hp := play_random_game_plies env fl mc b moves m_color i rng r h hloop
  obtain ⟨h1, h2⟩ := play_game_plies env mc b m_color rng
  have hc := play_game_starts_color env mc b m_color rng
  rw [← hp] at h1 h2
  refine ⟨?_, h2⟩
  have hlen : r.plies.length = (play_game_starts env mc b m_color rng).length := by
    have := congrArg List.length h1
    simpa using this
  have h3 : (play_game_starts env mc b m_color rng).map (fun s => (m_color, s.color))
      = ((play_game_starts env mc b m_color rng).map (fun s => s.color)).map
          (fun c => (m_color, c)) := by
    simp
  rw [h1, h3, hc, hlen, List.map_map]
  rfl

/-- C19 as amended, at the call of `play_random_game` for white that returns
`demo_scored_return`. -/
theorem oracle_queries_witness :
    demo_scored_return.plies.map (fun p => (p.hint_color, p.color))
      = (List.range demo_scored_return.plies.length).map
          (fun k => (stone.S_WHITE, stone_other^[k + 1] stone.S_WHITE)) ∧
    demo_scored_return.plies.map (fun p => p.hint_board)
      = (if (demo_rules.domain_hint { demo_mc with debug_level := 3 }
            (demo_rules.board_play_random [⟨2⟩, ⟨1⟩, ⟨-1⟩, ⟨-1⟩] demo_board stone.S_WHITE).1
            demo_board stone.S_WHITE).2 ≠ demo_rules.pass
          then demo_board :: ((play_game_starts demo_rules { demo_mc with debug_level := 3 }
            demo_board stone.S_WHITE [⟨2⟩, ⟨1⟩, ⟨-1⟩, ⟨-1⟩]).map (fun s => s.b2)).tail
          else (play_game_starts demo_rules { demo_mc with debug_level := 3 }
            demo_board stone.S_WHITE [⟨2⟩, ⟨1⟩, ⟨-1⟩, ⟨-1⟩]).map (fun s => s.b2)) :=
  oracle_queries demo_rules rat_ops { demo_mc with debug_level := 3 } demo_board
    ledger_zero stone.S_WHITE 0 [⟨2⟩, ⟨1⟩, ⟨-1⟩, ⟨-1⟩] demo_scored_return
    (by with_unfolding_all rfl) (by decide!)

/-! ## The ply budget -/

/-- A playout plays at most `max(10, gamelen - b2.moves) + 1` plies after the
candidate move, and at most `max(10, gamelen - b2.moves)` when the oracle has
no hint before the loop. -/
theorem play_game_starts_length {β R F : Type} (env : rules β R F) (mc : montecarlo F)
    (b : board β) (m_color : stone) (rng : R) :
    (play_game_starts env mc b m_color rng).length
      ≤ (max 10 (mc.gamelen - (env.board_play_random rng b m_color).2.1.moves)).toNat + 1 ∧
    ((env.domain_hint mc (env.board_play_random rng b m_color).1 b m_color).2 = env.pass →
      (play_game_starts env mc b m_color rng).length
        ≤ (max 10 (mc.gamelen - (env.board_play_random rng b m_color).2.1.moves)).toNat) := by
  have hmax : (if mc.gamelen - (env.board_play_random rng b m_color).2.1.moves < 10 then 10
      else mc.gamelen - (env.board_play_random rng b m_color).2.1.moves)
      = max 10 (mc.gamelen - (env.board_play_random rng b m_color).2.1.moves) := by
    split <;> omega
  unfold play_game_starts
  simp only [hmax]
  constructor
  · split
    · split
      · simp
      · simp only [List.length_cons]
        exact Nat.succ_le_succ (play_loop_starts_length env mc m_color _ _)
    · exact Nat.le_succ_of_le (play_loop_starts_length env mc m_color _ _)
  · intro hpass
    rw [if_neg (by simpa using hpass)]
    exact play_loop_starts_length env mc m_color _ _

/-- A call of `play_random_game` that returns `-1` or `-3` played no ply. -/
theorem play_random_game_plies_nil {β R F : Type} [LinearOrder F] (env : rules β R F)
    (fl : float_ops F) (mc : montecarlo F) (b : board β) (moves : ledger) (m_color : stone)
    (i : Int) (rng : R) (r : play_return β R)
    (h : play_random_game env fl mc b moves m_color i rng = some r)
    (hres : r.result = -1 ∨ r.result = -3) : r.plies = [] := by
  rw [play_random_game_eq] at h
  split at h
  · cases h
    rfl
  · split at h
    · cases h
      rfl
    · exfalso
      split at h
      · cases h
        rcases hres with e | e <;> simp at e
      · split at h
        · cases h
        · cases h
          simp only at hres
          rcases hres with e | e <;> split at e <;> split at e <;> simp at e

/-- The number of plies of a call of `play_random_game`: at most
`max(10, gamelen - b2.moves) + 1`, and at most `max(10, gamelen - b2.moves)`
when the oracle has no hint before the loop. -/
theorem play_random_game_ply_budget {β R F : Type} [LinearOrder F] (env : rules β R F)
    (fl : float_ops F) (mc : montecarlo F) (b : board β) (moves : ledger) (m_color : stone)
    (i : Int) (rng : R) (r : play_return β R)
    (h : play_random_game env fl mc b moves m_color i rng = some r) :
    r.plies.length
      ≤ (max 10 (mc.gamelen - (env.board_play_random rng b m_color).2.1.moves)).toNat + 1 ∧
    ((env.domain_hint mc (env.board_play_random rng b m_color).1 b m_color).2 = env.pass →
      r.plies.length
        ≤ (max 10 (mc.gamelen - (env.board_play_random rng b m_color).2.1.moves)).toNat) := by
  by_cases hloop : r.result ≠ -1 ∧ r.result ≠ -3
  · have hp := play_random_game_plies env fl mc b moves m_color i rng r h hloop
    have hlen : r.plies.length = (play_game_starts env mc b m_color rng).length := by
      have := congrArg List.length (play_game_plies env mc b m_color rng).1
      rw [← hp] at this
      simpa using this
    rw [hlen]
    exact play_game_starts_length env mc b m_color rng
  · have hres : r.result = -1 ∨ r.result = -3 := by
      by_cases h1 : r.result = -1
      · exact Or.inl h1
      · by_cases h3 : r.result = -3
        · exact Or.inr h3
        · exact absurd ⟨h1, h3⟩ hloop
    rw [play_random_game_plies_nil env fl mc b moves m_color i rng r h hres]
    exact ⟨Nat.zero_le _, fun _ => Nat.zero_le _⟩

/-! ## Two passes end the playout -/

/-- A ply played while `passes < 2` keeps two passes in a row at the end. -/
theorem ends_at_two_passes_concat (pass c : coord_t) (l : List coord_t) (passes : Int)
    (h : passes_ok pass l passes) (hlt : passes < 2) :
    ends_at_two_passes pass (l ++ [c]) := by
  intro k h1 h2
  obtain ⟨_, _, h4⟩ := h
  rcases Nat.lt_trichotomy (k + 1) l.length with hk | hk | hk
  · rw [List.getElem?_append_left (by omega)] at h1 h2
    have := (h4 k h1 h2).2
    omega
  · simp only [List.length_append, List.length_singleton]
    omega
  · rw [List.getElem?_eq_none (by simp; omega)] at h2
    cases h2

/-- A ply played while `passes < 2` keeps the invariant of the pass counter. -/
theorem passes_ok_concat (pass c : coord_t) (l : List coord_t) (passes : Int)
    (h : passes_ok pass l passes) (hlt : passes < 2) :
    passes_ok pass (l ++ [c]) (if c = pass then passes + 1 else 0) := by
  obtain ⟨h0, h2, h4⟩ := h
  refine ⟨by split <;> omega, ?_, ?_⟩
  · intro hl
    rw [List.getLast?_concat] at hl
    have hc : c = pass := by simpa using hl
    rw [if_pos hc]
    omega
  · intro k h1 hk2
    rcases Nat.lt_trichotomy (k + 1) l.length with hk | hk | hk
    · rw [List.getElem?_append_left (by omega)] at h1 hk2
      have := (h4 k h1 hk2).2
      omega
    · have hc : c = pass := by
        rw [List.getElem?_append_right (by omega)] at hk2
        have : k + 1 - l.length = 0 := by omega
        rw [this] at hk2
        simpa using hk2
      rw [List.getElem?_append_left (by omega)] at h1
      have hlast : l.getLast? = some pass := by
        rw [List.getLast?_eq_getElem?]
        have : l.length - 1 = k := by omega
        rw [this]
        exact h1
      have := h2 hlast
      rw [if_pos hc]
      simp only [List.length_append, List.length_singleton]
      omega
    · rw [List.getElem?_eq_none (by simp; omega)] at hk2
      cases hk2

/-- A ply adds the coordinate it plays to the log; when the playout goes on,
`passes` counts it if it is a pass and is reset otherwise. -/
theorem play_ply_coords {β R F : Type} (env : rules β R F) (mc : montecarlo F)
    (st : playout_state β R) (hint_board : board β) (hint_color : stone) (urgent : coord_t) :
    ∃ c : coord_t,
      (play_ply env mc st hint_board hint_color urgent).state.plies.map (fun p => p.coord)
        = st.plies.map (fun p => p.coord) ++ [c] ∧
      ∀ s, play_ply env mc st hint_board hint_color urgent = play_status.running s →
        s.passes = if c = env.pass then st.passes + 1 else 0 := by
  refine ⟨(if urgent ≠ env.pass then
      if (env.board_play st.b2 ⟨urgent, st.color⟩).2 < 0 then
        env.board_play_random st.rng (env.board_play st.b2 ⟨urgent, st.color⟩).1 st.color
      else (st.rng, (env.board_play st.b2 ⟨urgent, st.color⟩).1, urgent)
    else env.board_play_random st.rng st.b2 st.color).2.2, ?_, ?_⟩
  · unfold play_ply
    simp only
    generalize (if urgent ≠ env.pass then
      if (env.board_play st.b2 ⟨urgent, st.color⟩).2 < 0 then
        env.board_play_random st.rng (env.board_play st.b2 ⟨urgent, st.color⟩).1 st.color
      else (st.rng, (env.board_play st.b2 ⟨urgent, st.color⟩).1, urgent)
    else env.board_play_random st.rng st.b2 st.color) = played
    split <;> simp [play_status.state]
  · intro s hs
    unfold play_ply at hs
    simp only at hs
    generalize (if urgent ≠ env.pass then
      if (env.board_play st.b2 ⟨urgent, st.color⟩).2 < 0 then
        env.board_play_random st.rng (env.board_play st.b2 ⟨urgent, st.color⟩).1 st.color
      else (st.rng, (env.board_play st.b2 ⟨urgent, st.color⟩).1, urgent)
    else env.board_play_random st.rng st.b2 st.color) = played at hs ⊢
    split at hs
    · simp at hs
    · cases hs
      rfl

/-- The loop of plies keeps two passes in a row at the end of the log. -/
theorem play_loop_two_passes {β R F : Type} (env : rules β R F) (mc : montecarlo F)
    (m_color : stone) (gamelen : Nat) (st : playout_state β R)
    (h : passes_ok env.pass (st.plies.map (fun p => p.coord)) st.passes) :
    ends_at_two_passes env.pass
      ((play_loop env mc m_color gamelen st).state.plies.map (fun p => p.coord)) := by
  induction gamelen generalizing st with
  | zero =>
    intro k h1 h2
    exact (h.2.2 k h1 h2).1
  | succ n ih =>
    unfold play_loop
    by_cases hp : st.passes < 2
    · rw [if_pos hp]
      obtain ⟨c, hc, hpass⟩ := play_ply_coords env mc
        { st with rng := (env.domain_hint mc st.rng st.b2 m_color).1 } st.b2 m_color
        (env.domain_hint mc st.rng st.b2 m_color).2
      simp only at hc hpass ⊢
      cases hs : play_ply env mc
          { st with rng := (env.domain_hint mc st.rng st.b2 m_color).1 } st.b2 m_color
          (env.domain_hint mc st.rng st.b2 m_color).2 with
      | superko s =>
        rw [hs] at hc
        simp only [play_status.state] at hc ⊢
        rw [hc]
        exact ends_at_two_passes_concat env.pass c _ st.passes h hp
      | running s =>
        rw [hs] at hc
        simp only [play_status.state] at hc
        simp only
        apply ih s
        rw [hc, hpass s hs]
        exact passes_ok_concat env.pass c _ st.passes h hp
    · rw [if_neg hp]
      intro k h1 h2
      exact (h.2.2 k h1 h2).1

/-- In the log of `play_game`, two passes in a row are the last two plies: no
further ply is played after them. -/
theorem play_game_two_passes {β R F : Type} (env : rules β R F) (mc : montecarlo F)
    (b : board β) (m_color : stone) (rng : R) :
    ends_at_two_passes env.pass
      ((play_game env mc b m_color rng).state.plies.map (fun p => p.coord)) := by
  have h0 : passes_ok env.pass ([] : List coord_t) 0 := by
    refine ⟨le_refl _, by simp, ?_⟩
    intro k h1
    simp at h1
  unfold play_game
  simp only
  split
  · obtain ⟨c, hc, hpass⟩ := play_ply_coords env mc
      (⟨(env.board_play_random rng b m_color).2.1, stone_other m_color, env.pass, 0,
        (env.domain_hint mc (env.board_play_random rng b m_color).1 b m_color).1, []⟩ :
        playout_state β R) b m_color
      (env.domain_hint mc (env.board_play_random rng b m_color).1 b m_color).2
    simp only [List.map_nil, List.nil_append] at hc hpass
    cases hs : play_ply env mc
        (⟨(env.board_play_random rng b m_color).2.1, stone_other m_color, env.pass, 0,
          (env.domain_hint mc (env.board_play_random rng b m_color).1 b m_color).1, []⟩ :
          playout_state β R) b m_color
        (env.domain_hint mc (env.board_play_random rng b m_color).1 b m_color).2 with
    | superko s =>
      rw [hs] at hc
      simp only [play_status.state] at hc ⊢
      rw [hc]
      exact ends_at_two_passes_concat env.pass c [] 0 h0 (by decide)
    | running s =>
      rw [hs] at hc
      simp only [play_status.state] at hc
      simp only
      apply play_loop_two_passes
      rw [hc, hpass s hs]
      exact passes_ok_concat env.pass c [] 0 h0 (by decide)
  · apply play_loop_two_passes
    exact h0

/-- A call of `play_random_game` plays no further ply once two plies in a row
were passes: in its log, two passes in a row are the last two plies. -/
theorem play_random_game_two_passes {β R F : Type} [LinearOrder F] (env : rules β R F)
    (fl : float_ops F) (mc : montecarlo F) (b : board β) (moves : ledger) (m_color : stone)
    (i : Int) (rng : R) (r : play_return β R)
    (h : play_random_game env fl mc b moves m_color i rng = some r) (k : Nat)
    (h1 : (r.plies.map (fun p => p.coord))[k]? = some env.pass)
    (h2 : (r.plies.map (fun p => p.coord))[k + 1]? = some env.pass) :
    r.plies.length = k + 2 := by
  by_cases hloop : r.result ≠ -1 ∧ r.result ≠ -3
  · rw [play_random_game_plies env fl mc b moves m_color i rng r h hloop] at h1 h2 ⊢
    have := play_game_two_passes env mc b m_color rng k h1 h2
    simpa using this
  · have hres : r.result = -1 ∨ r.result = -3 := by
      by_cases e1 : r.result = -1
      · exact Or.inl e1
      · by_cases e3 : r.result = -3
        · exact Or.inr e3
        · exact absurd ⟨e1, e3⟩ hloop
    rw [play_random_game_plies_nil env fl mc b moves m_color i rng r h hres] at h1
    simp at h1

end Montecasino
